import Mathlib

/-!
# OpenOrienteering Mapper: OC*D unit conversion, georeferencing, combined symbols

A shallow embedding of

* `src/fileformats/ocd_file_format_p.h` (the inline converters of `OcdFileImport`),
* `src/georeferencing.cpp` (`Georeferencing`),
* `src/symbol_combined.cpp` (`CombinedSymbol`),

followed by the properties established about them.

Conventions of the embedding:

* a C++ signed integer of `w` bits is an `Int` together with `wrapInt w`, the
  two's-complement reduction applied after every arithmetic operation of that
  width;
* `double` computations are carried out in an arbitrary linear ordered field `R`
  (exact arithmetic; the reals are one instance, the rationals another one on
  which every definition can be evaluated);
* libm and PROJ.4 are external: their functions are fields of an environment
  record handed to the functions that call them; `tr()` is taken without a
  translation installed;
* Qt signals are recorded in an event log that is part of the object state;
* pointers to symbols are addresses into a heap of symbol objects, null being
  `none`; a recursive method takes the allowed depth of nested calls as `fuel`
  and ends in an `Outcome`: a value, a null dereference, or out of fuel;
* a memory buffer is the list of its bytes, and reading outside of it is an
  error.
-/

namespace Mapper

/-! ## Machine integers -/

/-- Two's-complement reduction of an integer to a signed type of `bits` bits. -/
def wrapInt (bits : Nat) (v : Int) : Int :=
  (v + 2 ^ (bits - 1)) % 2 ^ bits - 2 ^ (bits - 1)

/-- The values representable in a signed integer type of `bits` bits. -/
def InSigned (bits : Nat) (v : Int) : Prop :=
  -(2 ^ (bits - 1)) ≤ v ∧ v < 2 ^ (bits - 1)

instance (bits : Nat) (v : Int) : Decidable (InSigned bits v) := by
  unfold InSigned; infer_instance

/-- Arithmetic (sign-preserving) `operator>>` on a signed operand; the shift
used by the default branch of `convertOcdPoint`. -/
def sar (v : Int) (k : Nat) : Int := v >>> k

/-- The C++ `%` on signed operands: the remainder of the division that
truncates toward zero (it has the sign of the dividend). -/
def cRem (a b : Int) : Int := Int.tmod a b

/-! ## Map coordinates -/

/-- Modelled from the spec: `MapCoord` (declared in `map_coord.h`, which is not
among the sources), a map coordinate in the model's 1/1000 mm unit, reduced to
its two raw 64-bit components. -/
structure MapCoord where
  rawX : Int
  rawY : Int
  deriving DecidableEq, Repr

/-- Modelled from the spec: `MapCoord::fromRaw(qint64, qint64)` (declared in
`map_coord.h`), the coordinate whose raw components are the arguments. -/
def MapCoord.fromRaw (x y : Int) : MapCoord := ⟨x, y⟩

/-- `Ocd::OcdPoint32` (declared in `ocd_types.h`): two `qint32` fields. -/
structure OcdPoint32 where
  x : Int
  y : Int
  deriving DecidableEq, Repr

/-! ## `OcdFileImport` converters -/

/-- `OcdFileImport::convertOcdPoint`, default branch (`SHIFT_OPERATOR_IS_BINARY`
not defined):
`MapCoord::fromRaw(qint64(ocd_point.x >> 8) * 10, qint64(ocd_point.y >> 8) * -10)`.
The shift is done on the 32-bit operand, the product in 64 bits. -/
def convertOcdPoint (ocd_point : OcdPoint32) : MapCoord :=
  MapCoord.fromRaw
    (wrapInt 64 (wrapInt 64 (sar ocd_point.x 8) * 10))
    (wrapInt 64 (wrapInt 64 (sar ocd_point.y 8) * -10))

/-- The integer that `OcdFileImport::convertAngle` scales to radians:
`(ocd_angle + 3600) % 3600` on `int` (32 bits). -/
def convertAngleTenths (ocd_angle : Int) : Int :=
  cRem (wrapInt 32 (ocd_angle + 3600)) 3600

/-- `OcdFileImport::convertAngle`: `(M_PI / 1800) * ((ocd_angle + 3600) % 3600)`,
with `M_PI` a parameter and the product taken in exact arithmetic. -/
def convertAngle {R : Type} [LinearOrderedField R] (M_PI : R) (ocd_angle : Int) : R :=
  (M_PI / 1800) * ((convertAngleTenths ocd_angle : Int) : R)

/-- `OcdFileImport::convertLength<T>`: `((qint64)ocd_length) * 10`. The argument
is the value of the `T` operand; the cast and the product are 64-bit. -/
def convertLength (ocd_length : Int) : Int :=
  wrapInt 64 (wrapInt 64 ocd_length * 10)

/-- `MapColor*`: null (`none`) or the identity of a colour object of the map. -/
abbrev MapColorPtr := Option Nat

/-- `QHash<int, V>` of Qt, as its list of (key, value) entries; the first entry
of a key is the one the hash holds for it. -/
structure QHash (V : Type) where
  entries : List (Int × V)
  deriving DecidableEq, Repr

/-- The value stored for a key, if there is one. -/
def QHash.find {V : Type} (h : QHash V) (key : Int) : Option V :=
  h.entries.lookup key

/-- `QHash::contains(key)`. -/
def QHash.contains {V : Type} (h : QHash V) (key : Int) : Bool :=
  (h.find key).isSome

/-- The non-const `QHash::operator[](key)`: the value stored for the key; when the
key is absent a default-constructed value is inserted for it first. Returns the
value and the hash afterwards. -/
def QHash.index {V : Type} (dflt : V) (h : QHash V) (key : Int) : V × QHash V :=
  match h.find key with
  | some v => (v, h)
  | none => (dflt, ⟨(key, dflt) :: h.entries⟩)

/-- The members of `OcdFileImport` (and of its base `Importer`) that
`convertColor` reads or writes: the colour index and the list of warnings. -/
structure OcdFileImport where
  color_index : QHash MapColorPtr
  warnings : List String
  deriving DecidableEq, Repr

/-- Modelled from the spec: `Importer::addWarning` (declared in
`file_import_export.h`, which is not among the sources), the diagnostic sink:
the text is appended to the warnings. -/
def OcdFileImport.addWarning (imp : OcdFileImport) (text : String) : OcdFileImport :=
  { imp with warnings := imp.warnings ++ [text] }

/-- `tr("Color id not found: %1, ignoring this color").arg(ocd_color)`: the
source text (no translation installed) with the place marker `%1` replaced by
the decimal representation of the id. -/
def colorNotFoundText (ocd_color : Int) : String :=
  "Color id not found: " ++ toString ocd_color ++ ", ignoring this color"

/-- `OcdFileImport::convertColor`: the returned pointer and the importer
afterwards. -/
def convertColor (imp : OcdFileImport) (ocd_color : Int) : MapColorPtr × OcdFileImport :=
  if !imp.color_index.contains ocd_color then
    (none, imp.addWarning (colorNotFoundText ocd_color))
  else
    let r := QHash.index none imp.color_index ocd_color
    (r.1, { imp with color_index := r.2 })

/-! ## Qt value types used by `Georeferencing`

`QPointF` and `QTransform` belong to Qt. They are given by the arithmetic of
their documented operations, carried out exactly in the field `R`. -/

/-- `QPointF`. -/
structure QPointF (R : Type) where
  x : R
  y : R
  deriving DecidableEq, Repr

/-- `QTransform`: the 3x3 matrix `m11 m12 m13 / m21 m22 m23 / m31 m32 m33` acting
on row vectors; `m31`, `m32` are the translation `dx`, `dy`. -/
structure QTransform (R : Type) where
  m11 : R
  m12 : R
  m13 : R
  m21 : R
  m22 : R
  m23 : R
  m31 : R
  m32 : R
  m33 : R
  deriving DecidableEq, Repr

/-- The functions and constants of libm and `proj_api.h`, and Qt's degree to
radian factor, that `Georeferencing` uses; and the two PROJ.4 entry points.
A projection context (`projPJ`) is identified by a number, `NULL` is `none`. -/
structure Env (R : Type) where
  M_PI : R
  RAD_TO_DEG : R
  deg2rad : R
  sin : R → R
  cos : R → R
  atan : R → R
  /-- `pj_init_plus(spec)`: a context, or `NULL` when the spec is rejected. -/
  pj_init_plus : String → Option Nat
  /-- `pj_transform(src, dst, 1, 1, &x, &y, NULL)`: the return code and the
  contents of `x` and `y` afterwards. -/
  pj_transform : Nat → Nat → R → R → Int × R × R

section
variable {R : Type} [LinearOrderedField R]

/-- The identity matrix: `QTransform()` and the result of `reset()`. -/
def QTransform.identity : QTransform R := ⟨1, 0, 0, 0, 1, 0, 0, 0, 1⟩

/-- `QTransform::translate(dx, dy)`. -/
def QTransform.translate (t : QTransform R) (dx dy : R) : QTransform R :=
  { t with
    m31 := t.m31 + (dx * t.m11 + dy * t.m21)
    m32 := t.m32 + (dy * t.m22 + dx * t.m12)
    m33 := t.m33 + (dx * t.m13 + dy * t.m23) }

/-- `QTransform::scale(sx, sy)`. -/
def QTransform.scale (t : QTransform R) (sx sy : R) : QTransform R :=
  { t with
    m11 := t.m11 * sx, m12 := t.m12 * sx, m13 := t.m13 * sx
    m21 := t.m21 * sy, m22 := t.m22 * sy, m23 := t.m23 * sy }

/-- `QTransform::rotate(a)`, `a` in degrees about the Z axis. Qt writes the exact
sine and cosine for the right angles and returns at once for `a == 0`; in exact
arithmetic these cases agree with the general formula, which is the one kept. -/
def QTransform.rotate (env : Env R) (t : QTransform R) (a : R) : QTransform R :=
  let sina := env.sin (a * env.deg2rad)
  let cosa := env.cos (a * env.deg2rad)
  { t with
    m11 := cosa * t.m11 + sina * t.m21
    m12 := cosa * t.m12 + sina * t.m22
    m13 := cosa * t.m13 + sina * t.m23
    m21 := -sina * t.m11 + cosa * t.m21
    m22 := -sina * t.m12 + cosa * t.m22
    m23 := -sina * t.m13 + cosa * t.m23 }

/-- `QTransform::determinant()`. -/
def QTransform.determinant (t : QTransform R) : R :=
  t.m11 * (t.m33 * t.m22 - t.m32 * t.m23) - t.m21 * (t.m33 * t.m12 - t.m32 * t.m13)
    + t.m31 * (t.m23 * t.m12 - t.m22 * t.m13)

/-- `QTransform::adjoint()`. -/
def QTransform.adjoint (t : QTransform R) : QTransform R :=
  { m11 := t.m22 * t.m33 - t.m23 * t.m32
    m12 := t.m13 * t.m32 - t.m12 * t.m33
    m13 := t.m12 * t.m23 - t.m13 * t.m22
    m21 := t.m23 * t.m31 - t.m21 * t.m33
    m22 := t.m11 * t.m33 - t.m13 * t.m31
    m23 := t.m13 * t.m21 - t.m11 * t.m23
    m31 := t.m21 * t.m32 - t.m22 * t.m31
    m32 := t.m12 * t.m31 - t.m11 * t.m32
    m33 := t.m11 * t.m22 - t.m12 * t.m21 }

/-- `QTransform::inverted()`: the adjoint divided by the determinant; the
identity when the matrix is singular (determinant 0, tested exactly). -/
def QTransform.inverted (t : QTransform R) : QTransform R :=
  let det := t.determinant
  if det = 0 then QTransform.identity
  else
    let h := t.adjoint
    ⟨h.m11 / det, h.m12 / det, h.m13 / det, h.m21 / det, h.m22 / det, h.m23 / det,
      h.m31 / det, h.m32 / det, h.m33 / det⟩

/-- `QTransform::map(const QPointF&)`. -/
def QTransform.map (t : QTransform R) (p : QPointF R) : QPointF R :=
  let w := t.m13 * p.x + t.m23 * p.y + t.m33
  ⟨(t.m11 * p.x + t.m21 * p.y + t.m31) / w, (t.m12 * p.x + t.m22 * p.y + t.m32) / w⟩

/-! ## Coordinates -/

/-- Modelled from the spec: `MapCoord::xd()` (declared in `map_coord.h`), the x
component in millimetres: the raw value, which is in 1/1000 mm, over 1000. -/
def MapCoord.xd (c : MapCoord) : R := (c.rawX : R) / 1000

/-- Modelled from the spec: `MapCoord::yd()` (declared in `map_coord.h`). -/
def MapCoord.yd (c : MapCoord) : R := (c.rawY : R) / 1000

/-- Modelled from the spec: `MapCoord::toQPointF()` (declared in `map_coord.h`). -/
def MapCoord.toQPointF (c : MapCoord) : QPointF R := ⟨c.xd, c.yd⟩

end

/-- Modelled from the spec: `MapCoordF` (declared in `map_coord.h`), a map
coordinate in millimetres held in two `double`s. -/
structure MapCoordF (R : Type) where
  x : R
  y : R
  deriving DecidableEq, Repr

/-- Modelled from the spec: `MapCoordF::toQPointF()` (declared in `map_coord.h`). -/
def MapCoordF.toQPointF {R : Type} (c : MapCoordF R) : QPointF R := ⟨c.x, c.y⟩

/-- Modelled from the spec: `MapCoordF(QPointF)` (declared in `map_coord.h`). -/
def MapCoordF.ofQPointF {R : Type} (p : QPointF R) : MapCoordF R := ⟨p.x, p.y⟩

/-- Modelled from the spec: `LatLon` (declared in `georeferencing.h`, which is
not among the sources), a geographic coordinate; `LatLon(lat, lon)`. -/
structure LatLon (R : Type) where
  latitude : R
  longitude : R
  deriving DecidableEq, Repr

/-! ## `Georeferencing` -/

/-- The signals of `Georeferencing`. -/
inductive Signal where
  | transformationChanged
  | projectionChanged
  deriving DecidableEq, Repr

/-- The data members of `Georeferencing` (declared in `georeferencing.h`),
followed by the record of what the object did to the outside: the signals it
emitted and the contexts it passed to `pj_free`, oldest first. -/
structure Georeferencing (R : Type) where
  scale_denominator : Int
  declination : R
  grivation : R
  map_ref_point : MapCoord
  projected_ref_point : QPointF R
  from_projected : QTransform R
  to_projected : QTransform R
  projected_crs_id : String
  projected_crs_spec : String
  projected_crs : Option Nat
  geographic_ref_point : LatLon R
  geographic_crs : Option Nat
  signals : List Signal
  freed : List Nat
  deriving DecidableEq

/-- `Georeferencing::geographic_crs_spec`. -/
def geographic_crs_spec : String := "+proj=latlong +datum=WGS84"

section
variable {R : Type} [LinearOrderedField R]

namespace Georeferencing

/-- Modelled from the spec: `Georeferencing::isLocal()` (declared in
`georeferencing.h`): no projected CRS is configured. -/
def isLocal (g : Georeferencing R) : Bool := g.projected_crs.isNone

/-- `emit sig`. -/
def emit (g : Georeferencing R) (sig : Signal) : Georeferencing R :=
  { g with signals := g.signals ++ [sig] }

/-- The matrix that `updateTransformation` builds in `to_projected` after
`reset()`. -/
def rebuiltTransform (env : Env R) (g : Georeferencing R) : QTransform R :=
  let scale : R := (g.scale_denominator : R) / 1000
  (((QTransform.identity.translate g.projected_ref_point.x g.projected_ref_point.y).rotate
    env (-g.grivation)).scale scale (-scale)).translate (-g.map_ref_point.xd) (-g.map_ref_point.yd)

/-- `Georeferencing::updateTransformation`. -/
def updateTransformation (env : Env R) (g : Georeferencing R) : Georeferencing R :=
  let old := g.to_projected
  let g1 := { g with to_projected := rebuiltTransform env g }
  if old ≠ g1.to_projected then
    emit { g1 with from_projected := g1.to_projected.inverted } Signal.transformationChanged
  else
    g1

/-- `Georeferencing::toProjectedCoords(const MapCoord&)`. -/
def toProjectedCoords (g : Georeferencing R) (map_coords : MapCoord) : QPointF R :=
  g.to_projected.map map_coords.toQPointF

/-- `Georeferencing::toProjectedCoords(const MapCoordF&)`. -/
def toProjectedCoordsF (g : Georeferencing R) (map_coords : MapCoordF R) : QPointF R :=
  g.to_projected.map map_coords.toQPointF

/-- `Georeferencing::toMapCoordF(const QPointF&)`. -/
def toMapCoordF (g : Georeferencing R) (projected_coords : QPointF R) : MapCoordF R :=
  MapCoordF.ofQPointF (g.from_projected.map projected_coords)

/-- `Georeferencing::toGeographicCoords(const QPointF&, bool* ok)`: the
coordinate returned and the value left in `*ok`. -/
def toGeographicCoords (env : Env R) (g : Georeferencing R) (projected_coords : QPointF R) :
    LatLon R × Bool :=
  let easting := projected_coords.x
  let northing := projected_coords.y
  match g.projected_crs, g.geographic_crs with
  | some pcrs, some gcrs =>
    let r := env.pj_transform pcrs gcrs easting northing
    (⟨r.2.2, r.2.1⟩, decide (r.1 = 0))
  | _, _ => (⟨northing, easting⟩, false)

/-- `Georeferencing::toProjectedCoords(const LatLon&, bool* ok)`: the point
returned and the value left in `*ok`. -/
def toProjectedCoordsLatLon (env : Env R) (g : Georeferencing R) (lat_lon : LatLon R) :
    QPointF R × Bool :=
  let easting := lat_lon.longitude
  let northing := lat_lon.latitude
  match g.projected_crs, g.geographic_crs with
  | some pcrs, some gcrs =>
    let r := env.pj_transform gcrs pcrs easting northing
    (⟨r.2.1, r.2.2⟩, decide (r.1 = 0))
  | _, _ => (⟨easting, northing⟩, false)

/-- `Georeferencing::getConvergence`. -/
def getConvergence (env : Env R) (g : Georeferencing R) : R :=
  if g.isLocal then 0
  else
    let delta_phi := env.M_PI / 20000
    let lat := g.geographic_ref_point.latitude
    let geographic_other : LatLon R :=
      { g.geographic_ref_point with
        latitude := lat + (if lat < 0 then delta_phi else -delta_phi) }
    let projected_other := (toProjectedCoordsLatLon env g geographic_other).1
    let denominator := projected_other.y - g.projected_ref_point.y
    if |denominator| < 1 / 100000000000 then 0
    else env.RAD_TO_DEG * env.atan ((g.projected_ref_point.x - projected_other.x) / denominator)

/-- `Georeferencing::updateGrivation`: the object afterwards and the value
returned. -/
def updateGrivation (env : Env R) (g : Georeferencing R) : Georeferencing R × Bool :=
  let old_value := g.grivation
  let g1 := { g with grivation := g.declination - getConvergence env g }
  (g1, decide (old_value ≠ g1.grivation))

/-- `Georeferencing::Georeferencing()`. The `assert` on `geographic_crs` is a
debugging aid and is not part of the state. -/
def new (env : Env R) : Georeferencing R :=
  let g0 : Georeferencing R :=
    { scale_denominator := 0, declination := 0, grivation := 0
      map_ref_point := ⟨0, 0⟩, projected_ref_point := ⟨0, 0⟩
      from_projected := QTransform.identity, to_projected := QTransform.identity
      projected_crs_id := "", projected_crs_spec := ""
      projected_crs := none
      geographic_ref_point := ⟨0, 0⟩, geographic_crs := none
      signals := [], freed := [] }
  let g1 := updateTransformation env g0
  { g1 with
    projected_crs_id := "Local coordinates"
    projected_crs := none
    geographic_crs := env.pj_init_plus geographic_crs_spec }

/-- `Georeferencing::setScaleDenominator`. -/
def setScaleDenominator (env : Env R) (g : Georeferencing R) (value : Int) : Georeferencing R :=
  updateTransformation env { g with scale_denominator := value }

/-- `Georeferencing::setDeclination`. -/
def setDeclination (env : Env R) (g : Georeferencing R) (value : R) : Georeferencing R :=
  let g1 := { g with grivation := g.grivation + (value - g.declination) }
  updateTransformation env { g1 with declination := value }

/-- `Georeferencing::setGrivation`. -/
def setGrivation (env : Env R) (g : Georeferencing R) (value : R) : Georeferencing R :=
  let g1 := { g with declination := g.declination + (value - g.grivation) }
  updateTransformation env { g1 with grivation := value }

/-- `Georeferencing::setMapRefPoint`. -/
def setMapRefPoint (env : Env R) (g : Georeferencing R) (point : MapCoord) : Georeferencing R :=
  updateTransformation env { g with map_ref_point := point }

/-- `Georeferencing::setProjectedRefPoint`. -/
def setProjectedRefPoint (env : Env R) (g : Georeferencing R) (point : QPointF R) :
    Georeferencing R :=
  let g1 := { g with projected_ref_point := point }
  let r := toGeographicCoords env g1 point
  let g2 := if r.2 then { g1 with geographic_ref_point := r.1 } else g1
  updateTransformation env (updateGrivation env g2).1

/-- `pj_free(projected_crs)` when the context is not `NULL`. -/
def freeProjectedCrs (g : Georeferencing R) : Georeferencing R :=
  match g.projected_crs with
  | some pcrs => { g with freed := g.freed ++ [pcrs] }
  | none => g

/-- `Georeferencing::setProjectedCRS`: the object afterwards and the value
returned. -/
def setProjectedCRS (env : Env R) (g : Georeferencing R) (id spec : String) :
    Georeferencing R × Bool :=
  let g1 := freeProjectedCrs g
  let g2 := { g1 with projected_crs_id := id, projected_crs_spec := spec }
  let g3 := { g2 with projected_crs := env.pj_init_plus g2.projected_crs_spec }
  let r := updateGrivation env g3
  let g4 := if r.2 then updateTransformation env r.1 else r.1
  let g5 := emit g4 Signal.projectionChanged
  (g5, g5.projected_crs.isSome)

end Georeferencing

/-- A call of one of the two angle setters. -/
inductive AngleCall (R : Type) where
  | setDeclination (value : R)
  | setGrivation (value : R)

/-- The effect of an angle setter call. -/
def AngleCall.apply (env : Env R) (g : Georeferencing R) : AngleCall R → Georeferencing R
  | .setDeclination v => g.setDeclination env v
  | .setGrivation v => g.setGrivation env v

/-- A call of one of the setters that keep the projected CRS. -/
inductive SetterCall (R : Type) where
  | setScaleDenominator (value : Int)
  | setDeclination (value : R)
  | setGrivation (value : R)
  | setMapRefPoint (point : MapCoord)
  | setProjectedRefPoint (point : QPointF R)

/-- The effect of a setter call. -/
def SetterCall.apply (env : Env R) (g : Georeferencing R) : SetterCall R → Georeferencing R
  | .setScaleDenominator v => g.setScaleDenominator env v
  | .setDeclination v => g.setDeclination env v
  | .setGrivation v => g.setGrivation env v
  | .setMapRefPoint p => g.setMapRefPoint env p
  | .setProjectedRefPoint p => g.setProjectedRefPoint env p

end

/-- An environment over the rationals on which the definitions can be
evaluated: the rational parametrisation of the unit circle stands for `cos` and
`sin`, PROJ.4 accepts exactly the spec `"+proj=ok"` and transforms by swapping
the two coordinates. -/
def ratEnv : Env ℚ where
  M_PI := 22 / 7
  RAD_TO_DEG := 180 * 7 / 22
  deg2rad := 22 / 7 / 180
  sin := fun t => 2 * t / (1 + t ^ 2)
  cos := fun t => (1 - t ^ 2) / (1 + t ^ 2)
  atan := fun t => t
  pj_init_plus := fun spec => if spec = "+proj=ok" then some 1
    else if spec = geographic_crs_spec then some 0 else none
  pj_transform := fun _ _ x y => (0, y, x)

section
variable {R : Type} [LinearOrderedField R]

/-- The two relations between the members that every constructor and setter
establishes: `to_projected` is the transform of the current members, and
`from_projected` is its `inverted()`. -/
def TransformsCurrent (env : Env R) (g : Georeferencing R) : Prop :=
  g.to_projected = g.rebuiltTransform env ∧ g.from_projected = g.to_projected.inverted

/-- The members two states share when they differ at most in the projected CRS
(id, spec, context) and the record of freed contexts. -/
def SameButCrs (h g : Georeferencing R) : Prop :=
  h.scale_denominator = g.scale_denominator ∧ h.declination = g.declination ∧
  h.grivation = g.grivation ∧ h.map_ref_point = g.map_ref_point ∧
  h.projected_ref_point = g.projected_ref_point ∧ h.from_projected = g.from_projected ∧
  h.to_projected = g.to_projected ∧ h.geographic_ref_point = g.geographic_ref_point ∧
  h.geographic_crs = g.geographic_crs ∧ h.signals = g.signals

end

/-! ## Combined symbols (`symbol_combined.cpp`) -/

/-- `Symbol*`: null (`none`) or the address of a symbol object. -/
abbrev SymbolPtr := Option Nat

/-- Modelled from the spec: `Map` (declared in `map.h`, which is not among the
sources), reduced to its master symbol list: the addresses of the map's
symbols, in order. -/
structure Map where
  symbols : List Nat
  deriving DecidableEq, Repr

/-- Modelled from the spec: `Map::getNumSymbols()` (declared in `map.h`). -/
def Map.getNumSymbols (map : Map) : Int := map.symbols.length

/-- Modelled from the spec: `Map::getSymbol(int i)` (declared in `map.h`), the
symbol at position `i` of the list, for `0 <= i < getNumSymbols()`. -/
def Map.getSymbol (map : Map) (i : Int) : SymbolPtr := map.symbols[i.toNat]?

/-- Modelled from the spec: `Map::findSymbolIndex(Symbol*)` (declared in
`map.h`), the position of the symbol in the list, -1 when it is not there. -/
def Map.findSymbolIndex (map : Map) (symbol : Nat) : Int :=
  if symbol ∈ map.symbols then (map.symbols.indexOf symbol : Int) else -1

/-- The data members of `CombinedSymbol` (declared in `symbol_combined.h`):
`std::vector<Symbol*> parts` and `std::vector<int> temp_part_indices`. -/
structure CombinedSymbol where
  parts : List SymbolPtr
  temp_part_indices : List Int
  deriving DecidableEq, Repr

/-- `std::vector<T>::resize(n)`: cut to `n` elements, or filled up to `n` with
value-initialised elements. -/
def vectorResize {T : Type} (dflt : T) (v : List T) (n : Nat) : List T :=
  v.take n ++ List.replicate (n - v.length) dflt

/-- `CombinedSymbol::CombinedSymbol()`: two part slots, both null. -/
def CombinedSymbol.new : CombinedSymbol :=
  { parts := ((vectorResize none [] 2).set 0 none).set 1 none, temp_part_indices := [] }

/-- The `for` loop of `CombinedSymbol::loadFinished` from slot `i` on, over the
indices not yet visited: whether the loop ran to its end (false: it hit
`return false`), and `parts` then. -/
def loadFinishedLoop (map : Map) : List Int → Nat → List SymbolPtr → Bool × List SymbolPtr
  | [], _, parts => (true, parts)
  | index :: rest, i, parts =>
    if index < 0 ∨ index ≥ map.getNumSymbols then (false, parts)
    else loadFinishedLoop map rest (i + 1) (parts.set i (map.getSymbol index))

/-- `CombinedSymbol::loadFinished`: the value returned and the object
afterwards. -/
def CombinedSymbol.loadFinished (self : CombinedSymbol) (map : Map) : Bool × CombinedSymbol :=
  let size := self.temp_part_indices.length
  if size = 0 then (true, self)
  else
    let r := loadFinishedLoop map self.temp_part_indices 0 (vectorResize none self.parts size)
    if r.1 then (true, { parts := r.2, temp_part_indices := [] })
    else (false, { self with parts := r.2 })

/-- The four bytes of an `int` in memory (two's complement, least significant
byte first), as `QIODevice::write((const char*)&v, sizeof(int))` writes them. -/
def intBytes (v : Int) : List Nat :=
  let u := (v % 2 ^ 32).toNat
  [u % 256, u / 256 % 256, u / 65536 % 256, u / 16777216 % 256]

/-- `QIODevice::read((char*)&v, sizeof(int))` on a device whose unread bytes are
`file`: the `int` read and the bytes left; `none` when fewer than four bytes
are left (the value of `v` is then indeterminate). -/
def readInt : List Nat → Option (Int × List Nat)
  | b0 :: b1 :: b2 :: b3 :: rest =>
    some (wrapInt 32 ((b0 + 256 * b1 + 65536 * b2 + 16777216 * b3 : Nat) : Int), rest)
  | _ => none

/-- The value `saveImpl` writes for a part slot:
`(parts[i] == NULL) ? -1 : map->findSymbolIndex(parts[i])`. -/
def saveImplIndex (map : Map) : SymbolPtr → Int
  | none => -1
  | some symbol => map.findSymbolIndex symbol

/-- `CombinedSymbol::saveImpl`: the bytes appended to the device. -/
def CombinedSymbol.saveImpl (self : CombinedSymbol) (map : Map) : List Nat :=
  let size : Int := self.parts.length
  intBytes size ++ (self.parts.map fun part => intBytes (saveImplIndex map part)).flatten

/-- The `for` loop of `CombinedSymbol::loadImpl`: `count` more indices are read
from the device and stored; the indices read and the bytes left. -/
def loadImplLoop : Nat → List Nat → Option (List Int × List Nat)
  | 0, file => some ([], file)
  | count + 1, file =>
    match readInt file with
    | none => none
    | some (temp, file1) =>
      match loadImplLoop count file1 with
      | none => none
      | some (indices, file2) => some (temp :: indices, file2)

/-- `CombinedSymbol::loadImpl`: the value returned, the object afterwards and the
bytes left in the device. `none` when the device runs out of bytes, or when the
size read is negative (no `resize` to that size can succeed). -/
def CombinedSymbol.loadImpl (self : CombinedSymbol) (file : List Nat) :
    Option (Bool × CombinedSymbol × List Nat) :=
  match readInt file with
  | none => none
  | some (size, file1) =>
    if size < 0 then none
    else
      match loadImplLoop size.toNat file1 with
      | none => none
      | some (indices, file2) => some (true, { self with temp_part_indices := indices }, file2)

/-! ### Symbols on the heap -/

/-- Modelled from the spec: `Symbol::Type` (declared in `symbol.h`, which is not
among the sources), for the symbol classes other than `CombinedSymbol`. -/
inductive PlainType where
  | Point
  | Line
  | Area
  | Text
  deriving DecidableEq, Repr

/-- Modelled from the spec: the flag value of a plain `Symbol::Type` (declared in
`symbol.h`): `Point = 1`, `Line = 2`, `Area = 4`, `Text = 8`. -/
def PlainType.flag : PlainType → Nat
  | .Point => 1
  | .Line => 2
  | .Area => 4
  | .Text => 8

/-- Modelled from the spec: the flag value of `Symbol::Combined` (declared in
`symbol.h`). -/
def combinedFlag : Nat := 16

/-- A symbol object. A symbol of another class is reduced to what the methods
of `CombinedSymbol` ask of it: its type and the colours for which its own
`containsColor` answers true. -/
inductive Symbol where
  | plain (type : PlainType) (colors : List Nat)
  | combined (self : CombinedSymbol)
  deriving DecidableEq, Repr

/-- The symbol objects in memory, by address. -/
abbrev Heap := Nat → Symbol

/-- How a call ends: it returns a value, it dereferences a null pointer, or the
recursion is not finished within the allowed depth. -/
inductive Outcome (α : Type) where
  | done (value : α)
  | nullDeref
  | outOfFuel
  deriving DecidableEq, Repr

/-- The `for` loop of `CombinedSymbol::containsSymbol` over the part slots not
yet visited; `recurse` is the call `combined_symbol->containsSymbol(symbol)`. -/
def containsSymbolLoop (heap : Heap) (recurse : CombinedSymbol → Outcome Bool)
    (symbol : SymbolPtr) : List SymbolPtr → Outcome Bool
  | [] => .done false
  | part :: rest =>
    if part = symbol then .done true
    else
      match part with
      | none => .nullDeref
      | some address =>
        match heap address with
        | .combined combined_symbol =>
          match recurse combined_symbol with
          | .done true => .done true
          | .done false => containsSymbolLoop heap recurse symbol rest
          | .nullDeref => .nullDeref
          | .outOfFuel => .outOfFuel
        | .plain _ _ => containsSymbolLoop heap recurse symbol rest

/-- `CombinedSymbol::containsSymbol`, with at most `fuel` nested calls. -/
def CombinedSymbol.containsSymbol (heap : Heap) :
    Nat → CombinedSymbol → SymbolPtr → Outcome Bool
  | 0, _, _ => .outOfFuel
  | fuel + 1, self, symbol =>
    containsSymbolLoop heap (fun c => CombinedSymbol.containsSymbol heap fuel c symbol)
      symbol self.parts

/-- The `for` loop of `CombinedSymbol::containsColor` over the part slots not
yet visited; `recurse` is the virtual call on a part that is a Combined
symbol. -/
def containsColorLoop (heap : Heap) (recurse : CombinedSymbol → Outcome Bool)
    (color : Nat) : List SymbolPtr → Outcome Bool
  | [] => .done false
  | part :: rest =>
    match part with
    | none => .nullDeref
    | some address =>
      match heap address with
      | .combined combined_symbol =>
        match recurse combined_symbol with
        | .done true => .done true
        | .done false => containsColorLoop heap recurse color rest
        | .nullDeref => .nullDeref
        | .outOfFuel => .outOfFuel
      | .plain _ colors =>
        if color ∈ colors then .done true else containsColorLoop heap recurse color rest

/-- `CombinedSymbol::containsColor`, with at most `fuel` nested calls. -/
def CombinedSymbol.containsColor (heap : Heap) :
    Nat → CombinedSymbol → Nat → Outcome Bool
  | 0, _, _ => .outOfFuel
  | fuel + 1, self, color =>
    containsColorLoop heap (fun c => CombinedSymbol.containsColor heap fuel c color)
      color self.parts

/-- The `for` loop of `CombinedSymbol::getContainedTypes` over the part slots not
yet visited, `type` being the flags collected so far; `recurse` is the virtual
call on a part that is a Combined symbol. For a plain part the call is
modelled from the spec: `Symbol::getContainedTypes()` (declared in `symbol.h`)
returns the symbol's own type. -/
def getContainedTypesLoop (heap : Heap) (recurse : CombinedSymbol → Outcome Nat) :
    Nat → List SymbolPtr → Outcome Nat
  | type, [] => .done type
  | type, part :: rest =>
    match part with
    | none => getContainedTypesLoop heap recurse type rest
    | some address =>
      match heap address with
      | .combined combined_symbol =>
        match recurse combined_symbol with
        | .done t => getContainedTypesLoop heap recurse (type ||| t) rest
        | .nullDeref => .nullDeref
        | .outOfFuel => .outOfFuel
      | .plain t _ => getContainedTypesLoop heap recurse (type ||| t.flag) rest

/-- `CombinedSymbol::getContainedTypes`, with at most `fuel` nested calls. -/
def CombinedSymbol.getContainedTypes (heap : Heap) : Nat → CombinedSymbol → Outcome Nat
  | 0, _ => .outOfFuel
  | fuel + 1, self =>
    getContainedTypesLoop heap (CombinedSymbol.getContainedTypes heap fuel) combinedFlag
      self.parts

/-- A rank on addresses that decreases from every Combined symbol to each of its
non-null parts: the part graph of the heap has no cycle. -/
def Ranked (heap : Heap) (rank : Nat → Nat) : Prop :=
  ∀ address self, heap address = Symbol.combined self →
    ∀ part, some part ∈ self.parts → rank part < rank address

/-- The addresses a Combined symbol reaches through non-null part slots: its own
parts, and what its parts that are Combined symbols reach. -/
inductive PartOf (heap : Heap) : CombinedSymbol → Nat → Prop where
  | direct {self : CombinedSymbol} {part : Nat} :
      some part ∈ self.parts → PartOf heap self part
  | through {self inner : CombinedSymbol} {part address : Nat} :
      some part ∈ self.parts → heap part = Symbol.combined inner →
      PartOf heap inner address → PartOf heap self address

/-- A rank that decreases along the part slots below `self`: from every Combined
symbol that `self` reaches to each of its non-null parts. Symbols that `self`
does not reach are not constrained. -/
def RankedBelow (heap : Heap) (rank : Nat → Nat) (self : CombinedSymbol) : Prop :=
  ∀ address inner part, PartOf heap self address → heap address = Symbol.combined inner →
    some part ∈ inner.parts → rank part < rank address

/-- `qstrnlen(str, maxlen)` of Qt, `while (length < maxlen && *str++) length++`,
on a buffer of bytes: `remaining` is `maxlen - length`. Reading a position
outside the buffer is an error (`none`). -/
def qstrnlenFrom (str : List Nat) : Nat → Nat → Option Nat
  | 0, length => some length
  | remaining + 1, length =>
    match str[length]? with
    | none => none
    | some byte => if byte = 0 then some length else qstrnlenFrom str remaining (length + 1)

/-- `uint qstrnlen(const char* str, uint maxlen)` of Qt. The parameter is a
32-bit unsigned integer: an argument of a wider type (`std::size_t`) is reduced
modulo `2^32` by the call. -/
def qstrnlen (str : List Nat) (maxlen : Nat) : Option Nat :=
  qstrnlenFrom str (maxlen % 2 ^ 32) 0

/-- The bytes a decoder reads when it is given the buffer and the length `len`:
the first `len` bytes. Reading a position outside the buffer is an error
(`none`). -/
def readBytes (src : List Nat) (len : Nat) : Option (List Nat) :=
  if len ≤ src.length then some (src.take len) else none

/-- `OcdFileImport::convertOcdString<E>(const char* src, std::size_t len)`:
`len = qstrnlen(src, len)`, then the decoder of the encoding `E` on `src` and
`len`. The decoder is `custom_8bit_encoding->toUnicode(const char*, int)` for
`Ocd::Custom8BitEncoding` and `QString::fromUtf8(const char*, int)` for
`Ocd::Utf8Encoding`; both are Qt's and take the length as an `int`, to which
`len` is converted by the call. Both variants are this function, at their
decoder. -/
def convertOcdString (decoder : List Nat → Int → Option String) (src : List Nat) (len : Nat) :
    Option String :=
  match qstrnlen src len with
  | none => none
  | some len1 => decoder src (wrapInt 32 len1)

/-- What Qt documents of both decoders for a length that is not negative: the
first `len` bytes of the buffer are read and turned into a string, by `decode`.
Nothing is assumed for a negative length. -/
def DecodesPrefix (decoder : List Nat → Int → Option String) (decode : List Nat → String) :
    Prop :=
  ∀ (src : List Nat) (len : Nat), len < 2 ^ 31 →
    decoder src (len : Int) = (readBytes src len).map decode

/-- A decoder on which the definitions can be evaluated: one character per byte
(ISO 8859-1) for a length that is not negative. -/
def latin1Decoder (src : List Nat) (len : Int) : Option String :=
  if len < 0 then none
  else (readBytes src len.toNat).map fun bytes => String.mk (bytes.map Char.ofNat)

/-- A byte that is not the string terminator. -/
def isNonZeroByte (b : Nat) : Bool := decide (b ≠ 0)

/-- The C++ `/` on signed operands: the quotient truncated toward zero. -/
def cDiv (a b : Int) : Int := Int.tdiv a b

/-- The integer part of `Georeferencing::radToDMS`: from the `qint64 tmp` to the
`int`s `deg`, `min` and `csec`. -/
def radToDMSParts (tmp : Int) : Int × Int × Int :=
  let csec := wrapInt 32 (cRem tmp 6000)
  let tmp1 := cDiv tmp 6000
  let min := wrapInt 32 (cRem tmp1 60)
  let deg := wrapInt 32 (cDiv tmp1 60)
  (deg, min, csec)

/-- `Georeferencing::radToDMS`. The conversion of a `double` to `qint64` and
`QLocale().toString(x, 'f', 2)` are parameters; `csec / 100.0` is exact. -/
def radToDMS {R : Type} [LinearOrderedField R] (env : Env R) (toInt64 : R → Int)
    (localeToString : R → String) (val : R) : String :=
  let tmp := toInt64 (env.RAD_TO_DEG * val * 360000)
  let parts := radToDMSParts tmp
  toString parts.1 ++ "°" ++ toString parts.2.1 ++ "'" ++
    localeToString ((parts.2.2 : R) / 100) ++ "\""

/-- `operator>>` on a 32-bit signed operand when the compiler shifts the bit
pattern (zeros enter from the left): the case `SHIFT_OPERATOR_IS_BINARY` is
for. -/
def lsr32 (v : Int) (k : Nat) : Int := wrapInt 32 (v % 2 ^ 32 / 2 ^ k)

/-- The operand that the `SHIFT_OPERATOR_IS_BINARY` branch of `convertOcdPoint`
shifts for the coordinate `v`: `v` itself when `v > 0`, `-1 - v` otherwise. -/
def binaryShiftOperand (v : Int) : Int :=
  if v > 0 then v else wrapInt 32 (-1 - v)

/-- One coordinate in the `SHIFT_OPERATOR_IS_BINARY` branch of `convertOcdPoint`:
`(v > 0) ? (v >> 8) : (-1 - ((-1 - v) >> 8))`, in `int`, then widened. -/
def binaryShift8 (v : Int) : Int :=
  if v > 0 then lsr32 (binaryShiftOperand v) 8
  else wrapInt 32 (-1 - lsr32 (binaryShiftOperand v) 8)

/-- `OcdFileImport::convertOcdPoint`, branch `SHIFT_OPERATOR_IS_BINARY`. -/
def convertOcdPointBinary (ocd_point : OcdPoint32) : MapCoord :=
  let x := wrapInt 64 (binaryShift8 ocd_point.x)
  let y := wrapInt 64 (binaryShift8 ocd_point.y)
  MapCoord.fromRaw (wrapInt 64 (x * 10)) (wrapInt 64 (y * -10))

end Mapper

namespace Mapper

/-! ## Properties of the converters -/

theorem wrapInt_of_inSigned {bits : Nat} (hb : 0 < bits) {v : Int} (h : InSigned bits v) :
    wrapInt bits v = v := by
  obtain ⟨h1, h2⟩ := h
  have hp : (2 : Int) ^ bits = 2 * 2 ^ (bits - 1) := by
    obtain ⟨k, rfl⟩ : ∃ k, bits = k + 1 := ⟨bits - 1, by omega⟩
    simp [pow_succ, mul_comm]
  unfold wrapInt
  rw [Int.emod_eq_of_lt (by linarith) (by rw [hp]; linarith)]
  simp

theorem sar_eq_floor (v : Int) (k : Nat) : sar v k = ⌊(v : ℚ) / (2 ^ k : ℕ)⌋ := by
  rw [Rat.floor_intCast_div_natCast, sar, Int.shiftRight_eq_div_pow]

/-- C1: for every raw point of signed 32-bit integers, negative values
included, `convertOcdPoint` returns the coordinate with raw x `10 * ⌊x / 256⌋`
and raw y `-10 * ⌊y / 256⌋` (floor of the exact quotient, not truncation). -/
theorem convertOcdPoint_floor (p : OcdPoint32)
    (hx : InSigned 32 p.x) (hy : InSigned 32 p.y) :
    (convertOcdPoint p).rawX = 10 * ⌊(p.x : ℚ) / 256⌋ ∧
    (convertOcdPoint p).rawY = -10 * ⌊(p.y : ℚ) / 256⌋ := by
  have key : ∀ v : Int, InSigned 32 v →
      ⌊(v : ℚ) / 256⌋ = v / 256 ∧ InSigned 64 (v / 256) ∧
      InSigned 64 (v / 256 * 10) ∧ InSigned 64 (v / 256 * -10) := by
    intro v hv
    have e : ⌊(v : ℚ) / 256⌋ = v / 256 := by
      have := Rat.floor_intCast_div_natCast v 256
      simpa using this
    unfold InSigned at hv ⊢
    norm_num at hv ⊢
    refine ⟨e, ?_⟩
    omega
  have sx : sar p.x 8 = p.x / 256 := by
    rw [sar, Int.shiftRight_eq_div_pow]; norm_num
  have sy : sar p.y 8 = p.y / 256 := by
    rw [sar, Int.shiftRight_eq_div_pow]; norm_num
  obtain ⟨ex, a1, a2, _⟩ := key p.x hx
  obtain ⟨ey, b1, _, b3⟩ := key p.y hy
  simp only [convertOcdPoint, MapCoord.fromRaw, sx, sy]
  rw [wrapInt_of_inSigned (by norm_num) a1, wrapInt_of_inSigned (by norm_num) a2,
    wrapInt_of_inSigned (by norm_num) b1, wrapInt_of_inSigned (by norm_num) b3, ex, ey]
  constructor <;> ring

/-- Witness for C1 at the raw point `(-1, -257)`: truncation would give
`(0, 10)`, the code gives `(-10, 20)`. -/
theorem convertOcdPoint_floor_witness :
    (InSigned 32 (-1) ∧ InSigned 32 (-257)) ∧
    (convertOcdPoint ⟨-1, -257⟩).rawX = 10 * ⌊((-1 : Int) : ℚ) / 256⌋ ∧
    (convertOcdPoint ⟨-1, -257⟩).rawY = -10 * ⌊((-257 : Int) : ℚ) / 256⌋ :=
  ⟨by decide, convertOcdPoint_floor ⟨-1, -257⟩ (by decide) (by decide)⟩

/-! ### `convertAngle` -/

theorem convertAngleTenths_of_ge {a : Int} (h1 : -3600 ≤ a) (h2 : a < 2 ^ 31 - 3600) :
    convertAngleTenths a = (a + 3600) % 3600 := by
  have hw : wrapInt 32 (a + 3600) = a + 3600 :=
    wrapInt_of_inSigned (by norm_num) (by unfold InSigned; norm_num at h2 ⊢; omega)
  rw [convertAngleTenths, hw, cRem, Int.tmod_eq_emod (by omega) (by norm_num)]

/-- On raw angles from -3600 up to `INT_MAX - 3600` the normalised value lies in
`[0, 3600)`. -/
theorem convertAngleTenths_range_of_ge {a : Int} (h1 : -3600 ≤ a) (h2 : a < 2 ^ 31 - 3600) :
    0 ≤ convertAngleTenths a ∧ convertAngleTenths a < 3600 := by
  rw [convertAngleTenths_of_ge h1 h2]
  omega

/-- On raw angles from -3600 up to `INT_MAX - 3600` normalising twice is the same
as normalising once. -/
theorem convertAngleTenths_idem_of_ge {a : Int} (h1 : -3600 ≤ a) (h2 : a < 2 ^ 31 - 3600) :
    convertAngleTenths (convertAngleTenths a) = convertAngleTenths a := by
  obtain ⟨r1, r2⟩ := convertAngleTenths_range_of_ge h1 h2
  rw [convertAngleTenths_of_ge (a := convertAngleTenths a) (by omega) (by norm_num; omega)]
  omega

/-- A negative normalised value gives a negative angle, whatever positive value
stands for `M_PI`. -/
theorem convertAngle_neg_of_tenths_neg {R : Type} [LinearOrderedField R] (M_PI : R)
    (hpi : 0 < M_PI) (a : Int) (h : convertAngleTenths a < 0) : convertAngle M_PI a < 0 := by
  have hc : ((convertAngleTenths a : Int) : R) < 0 := by exact_mod_cast h
  have hp : 0 < M_PI / 1800 := by positivity
  exact mul_neg_of_pos_of_neg hp hc

/-- C2, evaluated at the raw angle -3601 (a signed 32-bit value): the integer
that `convertAngle` scales by pi/1800 is -1, which is outside `0 <= n < 3600`. -/
theorem convertAngleTenths_neg3601 :
    InSigned 32 (-3601) ∧ convertAngleTenths (-3601) = -1 ∧
    ¬ (0 ≤ convertAngleTenths (-3601) ∧ convertAngleTenths (-3601) < 3600) := by
  decide

/-- C3, evaluated at the raw angle -3601: normalising once gives -1,
normalising the result again gives 3599, so the two differ. -/
theorem convertAngleTenths_not_idem_neg3601 :
    convertAngleTenths (-3601) = -1 ∧
    convertAngleTenths (convertAngleTenths (-3601)) = 3599 ∧
    convertAngleTenths (convertAngleTenths (-3601)) ≠ convertAngleTenths (-3601) := by
  decide

/-! ### `convertLength` -/

/-- C4 as stated fails for a 64-bit operand: `2^62` is a signed 64-bit value and
`convertLength` does not return `10 * 2^62` for it. -/
theorem convertLength_wraps_int64 :
    InSigned 64 (2 ^ 62) ∧ convertLength (2 ^ 62) ≠ 10 * 2 ^ 62 := by
  decide

/-- C4, amended: for every raw length held in a 16-bit or 32-bit signed type,
and for every 64-bit raw length whose tenfold is itself a signed 64-bit value,
`convertLength` returns exactly `10 * v`, a signed 64-bit value. -/
theorem convertLength_exact (v : Int)
    (h : InSigned 16 v ∨ InSigned 32 v ∨ (InSigned 64 v ∧ InSigned 64 (10 * v))) :
    convertLength v = 10 * v ∧ InSigned 64 (convertLength v) := by
  have h64 : InSigned 64 v ∧ InSigned 64 (v * 10) := by
    unfold InSigned at h ⊢
    norm_num at h ⊢
    omega
  have e : convertLength v = 10 * v := by
    rw [convertLength, wrapInt_of_inSigned (by norm_num) h64.1,
      wrapInt_of_inSigned (by norm_num) h64.2, mul_comm]
  rw [e, mul_comm]
  exact ⟨rfl, h64.2⟩

/-- Witness for the amended C4 at the smallest 32-bit value. -/
theorem convertLength_exact_witness :
    InSigned 32 (-2147483648) ∧
    convertLength (-2147483648) = 10 * (-2147483648) ∧
    InSigned 64 (convertLength (-2147483648)) :=
  ⟨by decide, convertLength_exact (-2147483648) (Or.inr (Or.inl (by decide)))⟩

/-! ### `convertColor` -/

/-- C5: if the id is a key of `color_index`, `convertColor` returns the colour
mapped to it and adds no warning; if it is absent, `convertColor` returns the
null pointer and appends exactly one warning, "Color id not found: " followed by
the decimal id (and ", ignoring this color"). In both cases `color_index` is
unchanged. -/
theorem convertColor_spec (imp : OcdFileImport) (ocd_color : Int) :
    (∀ c, imp.color_index.find ocd_color = some c →
      convertColor imp ocd_color = (c, imp)) ∧
    (imp.color_index.find ocd_color = none →
      (convertColor imp ocd_color).1 = none ∧
      (convertColor imp ocd_color).2.warnings = imp.warnings ++
        ["Color id not found: " ++ toString ocd_color ++ ", ignoring this color"] ∧
      (convertColor imp ocd_color).2.color_index = imp.color_index) := by
  constructor
  · intro c hc
    simp [convertColor, QHash.contains, QHash.index, hc]
  · intro hn
    simp [convertColor, QHash.contains, hn, OcdFileImport.addWarning, colorNotFoundText]

/-- Witness for C5: with colour 5 mapped to object 0, id 5 is found and id 9 is
reported. -/
theorem convertColor_spec_witness :
    convertColor ⟨⟨[(5, some 0)]⟩, []⟩ 5 = (some 0, ⟨⟨[(5, some 0)]⟩, []⟩) ∧
    (convertColor ⟨⟨[(5, some 0)]⟩, []⟩ 9).2.warnings =
      ["Color id not found: 9, ignoring this color"] :=
  ⟨(convertColor_spec ⟨⟨[(5, some 0)]⟩, []⟩ 5).1 (some 0) (by decide),
   ((convertColor_spec ⟨⟨[(5, some 0)]⟩, []⟩ 9).2 (by decide)).2.1⟩

/-! ## Properties of `Georeferencing` -/

section
variable {R : Type} [LinearOrderedField R]

namespace Georeferencing

theorem updateTransformation_eq (env : Env R) (g : Georeferencing R) :
    updateTransformation env g =
      if g.to_projected ≠ rebuiltTransform env g then
        { g with
          to_projected := rebuiltTransform env g
          from_projected := (rebuiltTransform env g).inverted
          signals := g.signals ++ [Signal.transformationChanged] }
      else { g with to_projected := rebuiltTransform env g } := rfl

/-- What `updateTransformation` leaves alone: every member other than the two
transforms (and the signal record). -/
theorem updateTransformation_fields (env : Env R) (g : Georeferencing R) :
    (updateTransformation env g).scale_denominator = g.scale_denominator ∧
    (updateTransformation env g).declination = g.declination ∧
    (updateTransformation env g).grivation = g.grivation ∧
    (updateTransformation env g).map_ref_point = g.map_ref_point ∧
    (updateTransformation env g).projected_ref_point = g.projected_ref_point ∧
    (updateTransformation env g).projected_crs_id = g.projected_crs_id ∧
    (updateTransformation env g).projected_crs_spec = g.projected_crs_spec ∧
    (updateTransformation env g).projected_crs = g.projected_crs ∧
    (updateTransformation env g).geographic_ref_point = g.geographic_ref_point ∧
    (updateTransformation env g).geographic_crs = g.geographic_crs ∧
    (updateTransformation env g).freed = g.freed := by
  rw [updateTransformation_eq]
  split_ifs <;> simp

theorem updateTransformation_to_projected (env : Env R) (g : Georeferencing R) :
    (updateTransformation env g).to_projected = rebuiltTransform env g := by
  rw [updateTransformation_eq]
  split_ifs <;> simp

/-- The convergence is a function of the two projection contexts and the two
reference points. -/
theorem getConvergence_congr (env : Env R) (g h : Georeferencing R)
    (h1 : h.projected_crs = g.projected_crs) (h2 : h.geographic_crs = g.geographic_crs)
    (h3 : h.geographic_ref_point = g.geographic_ref_point)
    (h4 : h.projected_ref_point = g.projected_ref_point) :
    getConvergence env h = getConvergence env g := by
  simp only [getConvergence, isLocal, toProjectedCoordsLatLon, h1, h2, h3, h4]

theorem getConvergence_updateTransformation (env : Env R) (g : Georeferencing R) :
    getConvergence env (updateTransformation env g) = getConvergence env g := by
  obtain ⟨_, _, _, _, h4, _, _, h1, h3, h2, _⟩ := updateTransformation_fields env g
  exact getConvergence_congr env g _ h1 h2 h3 h4

theorem getConvergence_of_isLocal (env : Env R) (g : Georeferencing R)
    (h : g.isLocal = true) : getConvergence env g = 0 := by
  simp [getConvergence, h]

theorem getConvergence_setDeclination (env : Env R) (g : Georeferencing R) (v : R) :
    getConvergence env (g.setDeclination env v) = getConvergence env g := by
  rw [setDeclination, getConvergence_updateTransformation]
  exact getConvergence_congr env g _ rfl rfl rfl rfl

theorem getConvergence_setGrivation (env : Env R) (g : Georeferencing R) (v : R) :
    getConvergence env (g.setGrivation env v) = getConvergence env g := by
  rw [setGrivation, getConvergence_updateTransformation]
  exact getConvergence_congr env g _ rfl rfl rfl rfl

theorem setDeclination_angles (env : Env R) (g : Georeferencing R) (v : R) :
    (g.setDeclination env v).declination = v ∧
    (g.setDeclination env v).grivation = g.grivation + (v - g.declination) ∧
    (g.setDeclination env v).projected_crs = g.projected_crs := by
  obtain ⟨_, hd, hg, _, _, _, _, hp, _⟩ := updateTransformation_fields env
    { g with grivation := g.grivation + (v - g.declination), declination := v }
  exact ⟨hd, hg, hp⟩

theorem setGrivation_angles (env : Env R) (g : Georeferencing R) (v : R) :
    (g.setGrivation env v).grivation = v ∧
    (g.setGrivation env v).declination = g.declination + (v - g.grivation) ∧
    (g.setGrivation env v).projected_crs = g.projected_crs := by
  obtain ⟨_, hd, hg, _, _, _, _, hp, _⟩ := updateTransformation_fields env
    { g with declination := g.declination + (v - g.grivation), grivation := v }
  exact ⟨hg, hd, hp⟩

theorem new_fields (env : Env R) :
    (new env).declination = 0 ∧ (new env).grivation = 0 ∧ (new env).projected_crs = none ∧
    (new env).scale_denominator = 0 := by
  exact ⟨(updateTransformation_fields env _).2.1, (updateTransformation_fields env _).2.2.1,
    rfl, (updateTransformation_fields env _).1⟩

/-- Each angle setter call keeps the convergence and the relation between the
two angles. -/
theorem angleCall_apply_keeps (env : Env R) (c : R) (g : Georeferencing R) (call : AngleCall R)
    (hc : getConvergence env g = c) (hg : g.grivation = g.declination - c) :
    getConvergence env (call.apply env g) = c ∧
    (call.apply env g).grivation = (call.apply env g).declination - c ∧
    (call.apply env g).projected_crs = g.projected_crs := by
  cases call with
  | setDeclination v =>
    obtain ⟨h1, h2, h3⟩ := setDeclination_angles env g v
    refine ⟨by rw [AngleCall.apply, getConvergence_setDeclination, hc], ?_, h3⟩
    simp only [AngleCall.apply]
    rw [h1, h2, hg]; ring
  | setGrivation v =>
    obtain ⟨h1, h2, h3⟩ := setGrivation_angles env g v
    refine ⟨by rw [AngleCall.apply, getConvergence_setGrivation, hc], ?_, h3⟩
    simp only [AngleCall.apply]
    rw [h1, h2, hg]; ring

theorem angleCalls_keep (env : Env R) (c : R) (calls : List (AngleCall R)) :
    ∀ g : Georeferencing R, getConvergence env g = c → g.grivation = g.declination - c →
      getConvergence env (calls.foldl (AngleCall.apply env) g) = c ∧
      (calls.foldl (AngleCall.apply env) g).grivation =
        (calls.foldl (AngleCall.apply env) g).declination - c ∧
      (calls.foldl (AngleCall.apply env) g).projected_crs = g.projected_crs := by
  induction calls with
  | nil => intro g hc hg; exact ⟨hc, hg, rfl⟩
  | cons call rest ih =>
    intro g hc hg
    obtain ⟨k1, k2, k3⟩ := angleCall_apply_keeps env c g call hc hg
    obtain ⟨r1, r2, r3⟩ := ih (call.apply env g) k1 k2
    exact ⟨r1, r2, r3.trans k3⟩

end Georeferencing

open Georeferencing

/-- C6: in exact arithmetic, from every state with convergence `c` and
`grivation = declination - c`, after every finite sequence of `setDeclination` /
`setGrivation` calls the convergence is still `c` and `grivation = declination - c`
holds; a further call leaves the angle it sets at exactly the value passed; in
local mode `getConvergence` is 0, so that `grivation = declination`; and the
freshly constructed `Georeferencing` is such a state, in local mode. -/
theorem grivation_declination_invariant (env : Env R) :
    (∀ (g : Georeferencing R) (c : R) (calls : List (AngleCall R)),
      getConvergence env g = c → g.grivation = g.declination - c →
      (getConvergence env (calls.foldl (AngleCall.apply env) g) = c ∧
       (calls.foldl (AngleCall.apply env) g).grivation =
         (calls.foldl (AngleCall.apply env) g).declination - c ∧
       (∀ v, ((calls.foldl (AngleCall.apply env) g).setDeclination env v).declination = v) ∧
       (∀ v, ((calls.foldl (AngleCall.apply env) g).setGrivation env v).grivation = v) ∧
       (g.isLocal = true →
         (calls.foldl (AngleCall.apply env) g).isLocal = true ∧
         getConvergence env (calls.foldl (AngleCall.apply env) g) = 0 ∧
         (calls.foldl (AngleCall.apply env) g).grivation =
           (calls.foldl (AngleCall.apply env) g).declination))) ∧
    ((new env).isLocal = true ∧ getConvergence env (new env) = 0 ∧
      (new env).grivation = (new env).declination - getConvergence env (new env)) := by
  constructor
  · intro g c calls hc hg
    obtain ⟨r1, r2, r3⟩ := angleCalls_keep env c calls g hc hg
    refine ⟨r1, r2, fun v => (setDeclination_angles env _ v).1,
      fun v => (setGrivation_angles env _ v).1, ?_⟩
    intro hl
    have hl' : (calls.foldl (AngleCall.apply env) g).isLocal = true := by
      simpa [isLocal, r3] using hl
    have h0 := getConvergence_of_isLocal env _ hl'
    refine ⟨hl', h0, ?_⟩
    rw [r2, ← r1, h0, sub_zero]
  · obtain ⟨hd, hg, hp, _⟩ := new_fields env
    have hl : (new env).isLocal = true := by simp [isLocal, hp]
    have h0 := getConvergence_of_isLocal env _ hl
    exact ⟨hl, h0, by rw [hd, hg, h0, sub_zero]⟩

/-- C7: `updateTransformation` stores the rebuilt transform; it emits
`transformationChanged` (once) if and only if the rebuilt transform differs from
the one held before; when the two are equal nothing is emitted and
`from_projected` is unchanged. -/
theorem updateTransformation_notifies (env : Env R) (g : Georeferencing R) :
    (g.updateTransformation env).to_projected = g.rebuiltTransform env ∧
    ((g.updateTransformation env).signals = g.signals ++ [Signal.transformationChanged] ↔
      g.rebuiltTransform env ≠ g.to_projected) ∧
    ((g.updateTransformation env).signals = g.signals ↔
      g.rebuiltTransform env = g.to_projected) ∧
    (g.rebuiltTransform env = g.to_projected →
      (g.updateTransformation env).from_projected = g.from_projected) ∧
    (g.rebuiltTransform env ≠ g.to_projected →
      (g.updateTransformation env).from_projected = (g.rebuiltTransform env).inverted) := by
  refine ⟨Georeferencing.updateTransformation_to_projected env g, ?_⟩
  rw [Georeferencing.updateTransformation_eq]
  by_cases h : g.to_projected = g.rebuiltTransform env
  · simp [h]
  · have h' : ¬ g.rebuiltTransform env = g.to_projected := fun e => h e.symm
    simp [h, h']

end

section
variable {R : Type} [LinearOrderedField R]

open Georeferencing

theorem rebuiltTransform_entries (env : Env R) (g : Georeferencing R) :
    (g.rebuiltTransform env).m13 = 0 ∧ (g.rebuiltTransform env).m23 = 0 ∧
    (g.rebuiltTransform env).m33 = 1 ∧
    (g.rebuiltTransform env).determinant =
      -(((g.scale_denominator : R) / 1000) ^ 2 *
        (env.cos (-g.grivation * env.deg2rad) ^ 2 + env.sin (-g.grivation * env.deg2rad) ^ 2)) := by
  simp only [rebuiltTransform, QTransform.identity, QTransform.translate, QTransform.rotate,
    QTransform.scale, QTransform.determinant]
  refine ⟨by ring, by ring, by ring, by ring⟩

/-- C8: in exact arithmetic the transform rebuilt by `updateTransformation` is
the composition, applied first to last, of: translate by `-M`, scale by
`(s, -s)` with `s = scale_denominator / 1000`, rotate by `-grivation`, translate
by `P` (stated with the elementary `QTransform`s and as explicit coordinates);
and `toProjectedCoords(M) = P`. -/
theorem updateTransformation_composition (env : Env R) (g : Georeferencing R)
    (p : MapCoordF R) :
    (g.updateTransformation env).toProjectedCoordsF p =
      (QTransform.identity.translate g.projected_ref_point.x g.projected_ref_point.y).map
        ((QTransform.identity.rotate env (-g.grivation)).map
          ((QTransform.identity.scale ((g.scale_denominator : R) / 1000)
              (-((g.scale_denominator : R) / 1000))).map
            ((QTransform.identity.translate (-g.map_ref_point.xd) (-g.map_ref_point.yd)).map
              p.toQPointF))) ∧
    (g.updateTransformation env).toProjectedCoordsF p =
      ⟨g.projected_ref_point.x +
          (env.cos (-g.grivation * env.deg2rad) *
              ((g.scale_denominator : R) / 1000 * (p.x - g.map_ref_point.xd)) -
            env.sin (-g.grivation * env.deg2rad) *
              (-((g.scale_denominator : R) / 1000) * (p.y - g.map_ref_point.yd))),
        g.projected_ref_point.y +
          (env.sin (-g.grivation * env.deg2rad) *
              ((g.scale_denominator : R) / 1000 * (p.x - g.map_ref_point.xd)) +
            env.cos (-g.grivation * env.deg2rad) *
              (-((g.scale_denominator : R) / 1000) * (p.y - g.map_ref_point.yd)))⟩ ∧
    (g.updateTransformation env).toProjectedCoords (g.updateTransformation env).map_ref_point =
      (g.updateTransformation env).projected_ref_point := by
  obtain ⟨_, _, _, hM, hP, _⟩ := updateTransformation_fields env g
  rw [hM, hP]
  simp only [toProjectedCoordsF, toProjectedCoords, updateTransformation_to_projected,
    rebuiltTransform, QTransform.identity, QTransform.translate, QTransform.rotate,
    QTransform.scale, QTransform.map, MapCoordF.toQPointF, MapCoord.toQPointF,
    QPointF.mk.injEq]
  refine ⟨⟨?_, ?_⟩, ⟨?_, ?_⟩, ?_⟩
  · simp; ring
  · simp; ring
  · simp; ring
  · simp; ring
  · cases hp : g.projected_ref_point
    simp
    constructor <;> ring

/-- An affine matrix with non-zero determinant and its `inverted()` undo each
other on points. -/
theorem QTransform.inverted_map_of_affine (t : QTransform R) (h13 : t.m13 = 0) (h23 : t.m23 = 0)
    (h33 : t.m33 = 1) (hdet : t.determinant ≠ 0) (p : QPointF R) :
    t.inverted.map (t.map p) = p ∧ t.map (t.inverted.map p) = p := by
  obtain ⟨m11, m12, m13, m21, m22, m23, m31, m32, m33⟩ := t
  obtain ⟨x, y⟩ := p
  simp only at h13 h23 h33
  subst h13 h23 h33
  have hd' : QTransform.determinant ⟨m11, m12, 0, m21, m22, 0, m31, m32, 1⟩ =
      m11 * m22 - m21 * m12 := by
    simp only [QTransform.determinant]; ring
  rw [hd'] at hdet
  have h1 : (m11 * m22 - m12 * m21) / (m11 * m22 - m21 * m12) = 1 := by
    rw [div_eq_one_iff_eq hdet]; ring
  simp only [QTransform.inverted, hd', if_neg hdet, QTransform.adjoint, QTransform.map,
    QPointF.mk.injEq, zero_mul, mul_zero, add_zero, zero_add, sub_zero, zero_sub, mul_one,
    div_one, zero_div, sub_self, h1, one_mul]
  refine ⟨⟨?_, ?_⟩, ⟨?_, ?_⟩⟩ <;> field_simp <;> ring

theorem updateTransformation_current (env : Env R) (g : Georeferencing R)
    (h : g.from_projected = g.to_projected.inverted) :
    TransformsCurrent env (g.updateTransformation env) := by
  constructor
  · rw [updateTransformation_to_projected]
    obtain ⟨h1, h2, h3, h4, h5, _⟩ := updateTransformation_fields env g
    simp only [rebuiltTransform, h1, h3, h4, h5]
  · rw [updateTransformation_eq]
    split_ifs with hne
    · rfl
    · have e : g.to_projected = rebuiltTransform env g := not_not.mp hne
      show g.from_projected = (rebuiltTransform env g).inverted
      rw [← e]
      exact h

theorem new_current (env : Env R) : TransformsCurrent env (new env) := by
  have h := updateTransformation_current env
    { scale_denominator := 0, declination := 0, grivation := 0
      map_ref_point := ⟨0, 0⟩, projected_ref_point := ⟨0, 0⟩
      from_projected := QTransform.identity, to_projected := QTransform.identity
      projected_crs_id := "", projected_crs_spec := ""
      projected_crs := none
      geographic_ref_point := ⟨0, 0⟩, geographic_crs := none
      signals := [], freed := [] } (by simp [QTransform.inverted, QTransform.determinant, QTransform.identity, QTransform.adjoint])
  exact h

theorem setterCall_current (env : Env R) (g : Georeferencing R) (call : SetterCall R)
    (h : TransformsCurrent env g) : TransformsCurrent env (call.apply env g) := by
  cases call with
  | setScaleDenominator v => exact updateTransformation_current env _ h.2
  | setDeclination v => exact updateTransformation_current env _ h.2
  | setGrivation v => exact updateTransformation_current env _ h.2
  | setMapRefPoint p => exact updateTransformation_current env _ h.2
  | setProjectedRefPoint p =>
    apply updateTransformation_current
    simp only [updateGrivation]
    split_ifs <;> exact h.2

theorem setterCalls_current (env : Env R) (calls : List (SetterCall R)) :
    ∀ g : Georeferencing R, TransformsCurrent env g →
      TransformsCurrent env (calls.foldl (SetterCall.apply env) g) := by
  induction calls with
  | nil => intro g h; exact h
  | cons call rest ih => intro g h; exact ih _ (setterCall_current env g call h)

/-- C9: in exact arithmetic (`cos^2 + sin^2 = 1`), in every state reached from
the constructor by a sequence of `setScaleDenominator`, `setDeclination`,
`setGrivation`, `setMapRefPoint`, `setProjectedRefPoint` calls in which
`scale_denominator` is not 0, `toMapCoordF (toProjectedCoords p) = p` for every
map coordinate `p` and `toProjectedCoords (toMapCoordF q) = q` for every
projected point `q`. -/
theorem from_projected_inverse (env : Env R)
    (hcs : ∀ x, env.cos x ^ 2 + env.sin x ^ 2 = 1) (calls : List (SetterCall R))
    (hs : (calls.foldl (SetterCall.apply env) (new env)).scale_denominator ≠ 0) :
    (∀ p : MapCoordF R,
      (calls.foldl (SetterCall.apply env) (new env)).toMapCoordF
        ((calls.foldl (SetterCall.apply env) (new env)).toProjectedCoordsF p) = p) ∧
    (∀ q : QPointF R,
      (calls.foldl (SetterCall.apply env) (new env)).toProjectedCoordsF
        ((calls.foldl (SetterCall.apply env) (new env)).toMapCoordF q) = q) := by
  obtain ⟨hto, hfrom⟩ := setterCalls_current env calls (new env) (new_current env)
  generalize calls.foldl (SetterCall.apply env) (new env) = g at hto hfrom hs ⊢
  obtain ⟨e13, e23, e33, edet⟩ := rebuiltTransform_entries env g
  rw [← hto] at e13 e23 e33 edet
  have hdet : g.to_projected.determinant ≠ 0 := by
    rw [edet, hcs, mul_one]
    have : ((g.scale_denominator : R) / 1000) ≠ 0 :=
      div_ne_zero (Int.cast_ne_zero.mpr hs) (by norm_num)
    exact neg_ne_zero.mpr (pow_ne_zero 2 this)
  constructor
  · intro p
    have := (QTransform.inverted_map_of_affine g.to_projected e13 e23 e33 hdet p.toQPointF).1
    simp only [toMapCoordF, toProjectedCoordsF, hfrom, this]
    rfl
  · intro q
    have := (QTransform.inverted_map_of_affine g.to_projected e13 e23 e33 hdet q).2
    simp only [toMapCoordF, toProjectedCoordsF, hfrom]
    exact this

/-- `setProjectedCRS` is `updateGrivation`, `updateTransformation` when it
returned true, and the `projectionChanged` signal, run on the state `g3` in
which the id, the spec and the new context have been stored. -/
theorem setProjectedCRS_shape (env : Env R) (g : Georeferencing R) (id spec : String) :
    ∃ g3 : Georeferencing R,
      SameButCrs g3 g ∧ g3.projected_crs_id = id ∧ g3.projected_crs_spec = spec ∧
      g3.projected_crs = env.pj_init_plus spec ∧
      g.setProjectedCRS env id spec =
        (emit (if (updateGrivation env g3).2 = true
            then updateTransformation env (updateGrivation env g3).1
            else (updateGrivation env g3).1) Signal.projectionChanged,
          (emit (if (updateGrivation env g3).2 = true
            then updateTransformation env (updateGrivation env g3).1
            else (updateGrivation env g3).1) Signal.projectionChanged).projected_crs.isSome) := by
  refine ⟨{ freeProjectedCrs g with
      projected_crs_id := id, projected_crs_spec := spec
      projected_crs := env.pj_init_plus spec }, ?_, rfl, rfl, rfl, rfl⟩
  unfold SameButCrs freeProjectedCrs
  cases g.projected_crs <;> simp

theorem updateGrivation_shape (env : Env R) (g : Georeferencing R) :
    (updateGrivation env g).1.grivation = g.declination - getConvergence env g ∧
    getConvergence env (updateGrivation env g).1 = getConvergence env g ∧
    (updateGrivation env g).1.declination = g.declination ∧
    (updateGrivation env g).1.scale_denominator = g.scale_denominator ∧
    (updateGrivation env g).1.map_ref_point = g.map_ref_point ∧
    (updateGrivation env g).1.projected_ref_point = g.projected_ref_point ∧
    (updateGrivation env g).1.from_projected = g.from_projected ∧
    (updateGrivation env g).1.to_projected = g.to_projected ∧
    (updateGrivation env g).1.signals = g.signals ∧
    (updateGrivation env g).1.projected_crs_id = g.projected_crs_id ∧
    (updateGrivation env g).1.projected_crs_spec = g.projected_crs_spec ∧
    (updateGrivation env g).1.projected_crs = g.projected_crs ∧
    ((updateGrivation env g).2 = true ↔ (updateGrivation env g).1.grivation ≠ g.grivation) := by
  refine ⟨rfl, getConvergence_congr env g _ rfl rfl rfl rfl, rfl, rfl, rfl, rfl, rfl, rfl, rfl,
    rfl, rfl, rfl, ?_⟩
  simp only [updateGrivation, decide_eq_true_eq]
  exact ⟨fun h e => h e.symm, fun h e => h e.symm⟩

/-- C10: for every id and spec and every outcome of `pj_init_plus`,
`setProjectedCRS` stores the id and the spec, installs the context that
`pj_init_plus(spec)` returned, sets grivation to declination minus the
convergence of the new state (declination unchanged), rebuilds the transform
when grivation changed and leaves both transforms alone when it did not, emits
`projectionChanged` exactly once (last), and returns true if and only if the
context is non-null. -/
theorem setProjectedCRS_spec (env : Env R) (g : Georeferencing R) (id spec : String) :
    (g.setProjectedCRS env id spec).1.projected_crs_id = id ∧
    (g.setProjectedCRS env id spec).1.projected_crs_spec = spec ∧
    (g.setProjectedCRS env id spec).1.projected_crs = env.pj_init_plus spec ∧
    (g.setProjectedCRS env id spec).1.declination = g.declination ∧
    (g.setProjectedCRS env id spec).1.grivation =
      (g.setProjectedCRS env id spec).1.declination -
        getConvergence env (g.setProjectedCRS env id spec).1 ∧
    ((g.setProjectedCRS env id spec).1.grivation ≠ g.grivation →
      (g.setProjectedCRS env id spec).1.to_projected =
        rebuiltTransform env (g.setProjectedCRS env id spec).1 ∧
      ((g.setProjectedCRS env id spec).1.signals = g.signals ++ [Signal.projectionChanged] ∨
       (g.setProjectedCRS env id spec).1.signals =
         g.signals ++ [Signal.transformationChanged, Signal.projectionChanged])) ∧
    ((g.setProjectedCRS env id spec).1.grivation = g.grivation →
      (g.setProjectedCRS env id spec).1.to_projected = g.to_projected ∧
      (g.setProjectedCRS env id spec).1.from_projected = g.from_projected ∧
      (g.setProjectedCRS env id spec).1.signals = g.signals ++ [Signal.projectionChanged]) ∧
    (g.setProjectedCRS env id spec).1.signals.count Signal.projectionChanged =
      g.signals.count Signal.projectionChanged + 1 ∧
    ((g.setProjectedCRS env id spec).2 = true ↔ env.pj_init_plus spec ≠ none) := by
  obtain ⟨g3, ⟨s1, s2, s3, s4, s5, s6, s7, s8, s9, s10⟩, hid, hspec, hcrs, hres⟩ :=
    setProjectedCRS_shape env g id spec
  obtain ⟨v1, v2, v3, v4, v5, v6, v7, v8, v9, v10, v11, v12, v13⟩ := updateGrivation_shape env g3
  rw [hres]
  generalize (updateGrivation env g3).1 = g4 at v1 v2 v3 v4 v5 v6 v7 v8 v9 v10 v11 v12 v13 ⊢
  generalize (updateGrivation env g3).2 = b at v13 ⊢
  obtain ⟨u1, u2, u3, u4, u5, u6, u7, u8, u9, u10, u11⟩ := updateTransformation_fields env g4
  have hsig := updateTransformation_eq env g4
  have hg4 : g4.grivation = g4.declination - getConvergence env g4 := by rw [v1, v2, v3]
  cases b with
  | true =>
    have hne : g4.grivation ≠ g.grivation := by rw [← s3]; exact v13.mp rfl
    simp only [if_true, emit]
    have c5 : getConvergence env
        { updateTransformation env g4 with
          signals := (updateTransformation env g4).signals ++ [Signal.projectionChanged] } =
        getConvergence env g4 :=
      (getConvergence_congr env (updateTransformation env g4) _ rfl rfl rfl rfl).trans
        (getConvergence_updateTransformation env g4)
    refine ⟨by rw [u6, v10, hid], by rw [u7, v11, hspec], by rw [u8, v12, hcrs],
      by rw [u2, v3, s2], ?_, ?_, ?_, ?_, ?_⟩
    · rw [c5, u2, u3]; exact hg4
    · intro _
      refine ⟨?_, ?_⟩
      · rw [updateTransformation_to_projected]
        simp only [rebuiltTransform, u1, u3, u4, u5]
      · rw [hsig]
        split_ifs
        · right; simp [v9, s10]
        · left; simp [v9, s10]
    · intro he
      rw [u3] at he
      exact absurd he hne
    · rw [hsig]
      split_ifs <;> simp [v9, s10, List.count_cons]
    · rw [u8, v12, hcrs]; simp [Option.isSome_iff_ne_none]
  | false =>
    have he : g4.grivation = g.grivation := by
      rw [← s3]
      by_contra hcon
      exact Bool.false_ne_true (v13.mpr hcon)
    simp only [Bool.false_eq_true, if_false, emit]
    have c5 : getConvergence env { g4 with signals := g4.signals ++ [Signal.projectionChanged] } =
        getConvergence env g4 :=
      getConvergence_congr env g4 _ rfl rfl rfl rfl
    refine ⟨by rw [v10, hid], by rw [v11, hspec], by rw [v12, hcrs], by rw [v3, s2],
      ?_, ?_, ?_, ?_, ?_⟩
    · rw [c5]; exact hg4
    · intro hne
      exact absurd he hne
    · intro _
      exact ⟨by rw [v8, s7], by rw [v7, s6], by rw [v9, s10]⟩
    · simp [v9, s10]
    · rw [v12, hcrs]; simp [Option.isSome_iff_ne_none]

end

/-! ### Evaluations in the rational environment -/

open Georeferencing

/-- The rational parametrisation of the circle satisfies `cos^2 + sin^2 = 1`. -/
theorem ratEnv_cos_sin (x : ℚ) : ratEnv.cos x ^ 2 + ratEnv.sin x ^ 2 = 1 := by
  have h : (1 : ℚ) + x ^ 2 ≠ 0 := by positivity
  simp only [ratEnv]
  field_simp
  ring

/-- Witness for C6: the fresh object in the rational environment, after
`setDeclination(3)` and `setGrivation(5)`. -/
theorem grivation_declination_invariant_witness :
    (getConvergence ratEnv (new ratEnv) = 0 ∧
      (new ratEnv).grivation = (new ratEnv).declination - 0) ∧
    getConvergence ratEnv
        ([AngleCall.setDeclination 3, AngleCall.setGrivation 5].foldl
          (AngleCall.apply ratEnv) (new ratEnv)) = 0 ∧
    ([AngleCall.setDeclination 3, AngleCall.setGrivation 5].foldl
        (AngleCall.apply ratEnv) (new ratEnv)).grivation =
      ([AngleCall.setDeclination 3, AngleCall.setGrivation 5].foldl
        (AngleCall.apply ratEnv) (new ratEnv)).declination - 0 :=
  have h0 := (grivation_declination_invariant ratEnv).2.2.1
  have h1 : (new ratEnv).grivation = (new ratEnv).declination - 0 := by
    have := (grivation_declination_invariant ratEnv).2.2.2
    rwa [h0] at this
  have h := (grivation_declination_invariant ratEnv).1 (new ratEnv) 0
    [AngleCall.setDeclination 3, AngleCall.setGrivation 5] h0 h1
  ⟨⟨h0, h1⟩, h.1, h.2.1⟩

/-- Witness for C9: scale 1:15000, grivation 1, map reference point (1 mm, 2 mm),
in the rational environment. -/
theorem from_projected_inverse_witness :
    ((∀ x, ratEnv.cos x ^ 2 + ratEnv.sin x ^ 2 = 1) ∧
      ([SetterCall.setMapRefPoint ⟨1000, 2000⟩, SetterCall.setGrivation 1,
          SetterCall.setScaleDenominator 15000].foldl
        (SetterCall.apply ratEnv) (new ratEnv)).scale_denominator ≠ 0) ∧
    ([SetterCall.setMapRefPoint ⟨1000, 2000⟩, SetterCall.setGrivation 1,
          SetterCall.setScaleDenominator 15000].foldl
        (SetterCall.apply ratEnv) (new ratEnv)).toMapCoordF
      (([SetterCall.setMapRefPoint ⟨1000, 2000⟩, SetterCall.setGrivation 1,
          SetterCall.setScaleDenominator 15000].foldl
        (SetterCall.apply ratEnv) (new ratEnv)).toProjectedCoordsF ⟨7, -3⟩) = ⟨7, -3⟩ :=
  have hs : ([SetterCall.setMapRefPoint ⟨1000, 2000⟩, SetterCall.setGrivation 1,
          SetterCall.setScaleDenominator 15000].foldl
        (SetterCall.apply ratEnv) (new ratEnv)).scale_denominator ≠ 0 := by
    simp only [List.foldl, SetterCall.apply, setScaleDenominator]
    rw [(updateTransformation_fields ratEnv _).1]
    decide
  ⟨⟨ratEnv_cos_sin, hs⟩, (from_projected_inverse ratEnv ratEnv_cos_sin _ hs).1 ⟨7, -3⟩⟩

/-- Witness for C7: scale 1:1000 stored in the fresh object makes the rebuilt
transform differ from the one held, and the signal is emitted. -/
theorem updateTransformation_notifies_witness :
    rebuiltTransform ratEnv { new ratEnv with scale_denominator := 1000 } ≠
      (new ratEnv).to_projected ∧
    (updateTransformation ratEnv { new ratEnv with scale_denominator := 1000 }).signals =
      (new ratEnv).signals ++ [Signal.transformationChanged] :=
  have hne : rebuiltTransform ratEnv { new ratEnv with scale_denominator := 1000 } ≠
      (new ratEnv).to_projected := by
    have e : (new ratEnv).to_projected = ⟨0, 0, 0, 0, 0, 0, 0, 0, 1⟩ := by
      simp [new, updateTransformation_to_projected, rebuiltTransform, QTransform.identity,
        QTransform.translate, QTransform.rotate, QTransform.scale, MapCoord.xd, MapCoord.yd]
    rw [e]
    simp [rebuiltTransform, new_fields, QTransform.identity,
        QTransform.translate, QTransform.rotate, QTransform.scale, MapCoord.xd, MapCoord.yd, ratEnv]
  ⟨hne, (updateTransformation_notifies ratEnv { new ratEnv with scale_denominator := 1000 }).2.1.mpr hne⟩

/-- Witness for C10: a rejected spec in the rational environment. The id and
the spec are stored, the call returns false. -/
theorem setProjectedCRS_spec_witness :
    ((new ratEnv).setProjectedCRS ratEnv "UTM" "+proj=bad").1.projected_crs_id = "UTM" ∧
    ((new ratEnv).setProjectedCRS ratEnv "UTM" "+proj=bad").1.projected_crs_spec = "+proj=bad" ∧
    ((new ratEnv).setProjectedCRS ratEnv "UTM" "+proj=bad").2 = false ∧
    ((new ratEnv).setProjectedCRS ratEnv "UTM" "+proj=ok").2 = true :=
  have h := setProjectedCRS_spec ratEnv (new ratEnv) "UTM" "+proj=bad"
  have h' := setProjectedCRS_spec ratEnv (new ratEnv) "UTM" "+proj=ok"
  ⟨h.1, h.2.1,
    by
      have := h.2.2.2.2.2.2.2.2
      cases hb : ((new ratEnv).setProjectedCRS ratEnv "UTM" "+proj=bad").2
      · rfl
      · exact absurd (this.mp hb) (by decide),
    h'.2.2.2.2.2.2.2.2.mpr (by decide)⟩

/-! ### Geographic conversions -/

/-- C11: the value left in `ok` by `toGeographicCoords(projected, ok)` and by
`toProjectedCoords(LatLon, ok)` is true if and only if both projection contexts
exist and `pj_transform` returned 0; in local mode (no projected CRS) it is
false and the coordinate returned is the input unchanged: latitude = y and
longitude = x, respectively x = longitude and y = latitude. -/
theorem geographic_conversion_ok {R : Type} [LinearOrderedField R] (env : Env R)
    (g : Georeferencing R) (p : QPointF R) (lat_lon : LatLon R) :
    ((toGeographicCoords env g p).2 = true ↔
      ∃ pcrs gcrs, g.projected_crs = some pcrs ∧ g.geographic_crs = some gcrs ∧
        (env.pj_transform pcrs gcrs p.x p.y).1 = 0) ∧
    ((toProjectedCoordsLatLon env g lat_lon).2 = true ↔
      ∃ pcrs gcrs, g.projected_crs = some pcrs ∧ g.geographic_crs = some gcrs ∧
        (env.pj_transform gcrs pcrs lat_lon.longitude lat_lon.latitude).1 = 0) ∧
    (g.isLocal = true →
      toGeographicCoords env g p = (⟨p.y, p.x⟩, false) ∧
      toProjectedCoordsLatLon env g lat_lon =
        (⟨lat_lon.longitude, lat_lon.latitude⟩, false)) := by
  unfold toGeographicCoords toProjectedCoordsLatLon isLocal
  cases hp : g.projected_crs <;> cases hg : g.geographic_crs <;> simp

/-- Witness for C11: the fresh object of the rational environment is in local
mode, and both conversions hand the input back with `ok` false. -/
theorem geographic_conversion_ok_witness :
    toGeographicCoords ratEnv (new ratEnv) ⟨3, 4⟩ = (⟨4, 3⟩, false) ∧
    toProjectedCoordsLatLon ratEnv (new ratEnv) ⟨4, 3⟩ = (⟨3, 4⟩, false) :=
  (geographic_conversion_ok ratEnv (new ratEnv) ⟨3, 4⟩ ⟨4, 3⟩).2.2
    (by simp [isLocal, (new_fields ratEnv).2.2.1])

/-! ### `CombinedSymbol::loadFinished` -/

theorem vectorResize_length {T : Type} (dflt : T) (v : List T) (n : Nat) :
    (vectorResize dflt v n).length = n := by
  simp [vectorResize]
  omega

/-- An index in range names a symbol of the map. -/
theorem Map.getSymbol_of_inRange (map : Map) (index : Int) (h0 : 0 ≤ index)
    (h1 : index < map.getNumSymbols) :
    ∃ a, map.getSymbol index = some a ∧ a ∈ map.symbols := by
  have hlt : index.toNat < map.symbols.length := by
    unfold Map.getNumSymbols at h1
    omega
  refine ⟨map.symbols[index.toNat], ?_, List.getElem_mem _⟩
  simp [Map.getSymbol, List.getElem?_eq_getElem hlt]

/-- The loop of `loadFinished`, started at slot `i` with the indices `rest`
left: what it returns and which slots it has written. -/
theorem loadFinishedLoop_spec (map : Map) (rest : List Int) :
    ∀ (i : Nat) (parts : List SymbolPtr), i + rest.length ≤ parts.length →
      ((loadFinishedLoop map rest i parts).1 = true ↔
        ∀ index ∈ rest, 0 ≤ index ∧ index < map.getNumSymbols) ∧
      (loadFinishedLoop map rest i parts).2.length = parts.length ∧
      (∀ k, k < i → (loadFinishedLoop map rest i parts).2[k]? = parts[k]?) ∧
      (∀ k, i + rest.length ≤ k → (loadFinishedLoop map rest i parts).2[k]? = parts[k]?) ∧
      (∀ k index, rest[k]? = some index →
        (∀ j jndex, j ≤ k → rest[j]? = some jndex → 0 ≤ jndex ∧ jndex < map.getNumSymbols) →
        (loadFinishedLoop map rest i parts).2[i + k]? = some (map.getSymbol index)) := by
  induction rest with
  | nil =>
    intro i parts _
    simp [loadFinishedLoop]
  | cons index rest ih =>
    intro i parts hlen
    simp only [List.length_cons] at hlen
    by_cases hbad : index < 0 ∨ index ≥ map.getNumSymbols
    · have e : loadFinishedLoop map (index :: rest) i parts = (false, parts) := by
        simp [loadFinishedLoop, hbad]
      rw [e]
      refine ⟨?_, rfl, fun _ _ => rfl, fun _ _ => rfl, ?_⟩
      · constructor
        · intro h; exact absurd h (by simp)
        · intro h
          have := h index (List.mem_cons_self _ _)
          omega
      · intro k idx _ hall
        have := hall 0 index (Nat.zero_le _) (by simp)
        omega
    · have e : loadFinishedLoop map (index :: rest) i parts =
          loadFinishedLoop map rest (i + 1) (parts.set i (map.getSymbol index)) := by
        simp [loadFinishedLoop, hbad]
      rw [e]
      have hin : 0 ≤ index ∧ index < map.getNumSymbols := by omega
      obtain ⟨h1, h2, h3, h4, h5⟩ := ih (i + 1) (parts.set i (map.getSymbol index))
        (by simp; omega)
      refine ⟨?_, ?_, ?_, ?_, ?_⟩
      · rw [h1]
        constructor
        · intro h idx hmem
          rcases List.mem_cons.mp hmem with rfl | hm
          · exact hin
          · exact h idx hm
        · intro h idx hmem
          exact h idx (List.mem_cons_of_mem _ hmem)
      · rw [h2]; simp
      · intro k hk
        rw [h3 k (by omega), List.getElem?_set_ne (by omega)]
      · intro k hk
        simp only [List.length_cons] at hk
        rw [h4 k (by omega), List.getElem?_set_ne (by omega)]
      · intro k idx hk hall
        cases k with
        | zero =>
          simp only [List.getElem?_cons_zero, Option.some.injEq] at hk
          subst hk
          rw [show i + 0 = i from rfl, h3 i (by omega)]
          simp [List.getElem?_set_eq_of_lt, show i < parts.length by omega]
        | succ k =>
          simp only [List.getElem?_cons_succ] at hk
          have := h5 k idx hk (fun j jdx hj hjk => hall (j + 1) jdx (by omega) (by simpa using hjk))
          rw [← this]
          congr 1
          omega

/-- C12: with a non-empty list of stored part indices, `loadFinished` returns
false if and only if some index is outside `0 <= index < getNumSymbols()`; when
it returns true, slot `i` holds the map's symbol at the `i`-th stored index, for
every `i`, and the index list is cleared; when it returns false, every slot
before the first out-of-range index holds the map's symbol at its stored index.
With an empty index list it returns true and changes nothing. -/
theorem loadFinished_spec (self : CombinedSymbol) (map : Map) :
    (self.temp_part_indices ≠ [] →
      ((self.loadFinished map).1 = false ↔
        ∃ index ∈ self.temp_part_indices, index < 0 ∨ map.getNumSymbols ≤ index) ∧
      ((self.loadFinished map).1 = true →
        (self.loadFinished map).2.parts = self.temp_part_indices.map map.getSymbol ∧
        (∀ part ∈ (self.loadFinished map).2.parts, ∃ a, part = some a ∧ a ∈ map.symbols) ∧
        (self.loadFinished map).2.temp_part_indices = []) ∧
      ((self.loadFinished map).1 = false →
        ∀ (i : Nat) (index : Int), self.temp_part_indices[i]? = some index →
          (∀ (j : Nat) (jndex : Int), j ≤ i → self.temp_part_indices[j]? = some jndex →
            0 ≤ jndex ∧ jndex < map.getNumSymbols) →
          (self.loadFinished map).2.parts[i]? = some (map.getSymbol index))) ∧
    (self.temp_part_indices = [] → self.loadFinished map = (true, self)) := by
  constructor
  · intro hne
    have hsize : self.temp_part_indices.length ≠ 0 := by
      simpa [List.length_eq_zero] using hne
    obtain ⟨h1, h2, _, _, h5⟩ := loadFinishedLoop_spec map self.temp_part_indices 0
      (vectorResize none self.parts self.temp_part_indices.length)
      (by rw [vectorResize_length]; omega)
    rw [vectorResize_length] at h2
    simp only [Nat.zero_add] at h5
    cases hr : (loadFinishedLoop map self.temp_part_indices 0
        (vectorResize none self.parts self.temp_part_indices.length)).1 with
    | true =>
      have e : self.loadFinished map = (true,
          { parts := (loadFinishedLoop map self.temp_part_indices 0
              (vectorResize none self.parts self.temp_part_indices.length)).2,
            temp_part_indices := [] }) := by
        simp [CombinedSymbol.loadFinished, hsize, hr]
      have hall := h1.mp hr
      have hparts : (loadFinishedLoop map self.temp_part_indices 0
            (vectorResize none self.parts self.temp_part_indices.length)).2 =
          self.temp_part_indices.map map.getSymbol := by
        apply List.ext_getElem?
        intro k
        by_cases hk : k < self.temp_part_indices.length
        · rw [h5 k self.temp_part_indices[k] (List.getElem?_eq_getElem hk)
            (fun j jndex _ hj => hall jndex (List.getElem?_mem hj))]
          simp [List.getElem?_eq_getElem hk]
        · rw [List.getElem?_eq_none (by omega), List.getElem?_eq_none (by simp; omega)]
      rw [e]
      refine ⟨?_, ?_, ?_⟩
      · constructor
        · intro h; exact absurd h (by simp)
        · rintro ⟨index, hm, hb⟩
          have := hall index hm
          omega
      · intro _
        refine ⟨hparts, ?_, rfl⟩
        intro part hp
        simp only [hparts, List.mem_map] at hp
        obtain ⟨index, hm, rfl⟩ := hp
        obtain ⟨a, ha, ham⟩ := Map.getSymbol_of_inRange map index (hall index hm).1 (hall index hm).2
        exact ⟨a, ha, ham⟩
      · intro h; exact absurd h (by simp)
    | false =>
      have e : self.loadFinished map = (false,
          { self with parts := (loadFinishedLoop map self.temp_part_indices 0
              (vectorResize none self.parts self.temp_part_indices.length)).2 }) := by
        simp [CombinedSymbol.loadFinished, hsize, hr]
      rw [e]
      refine ⟨?_, ?_, ?_⟩
      · constructor
        · intro _
          by_contra hcon
          have : (loadFinishedLoop map self.temp_part_indices 0
              (vectorResize none self.parts self.temp_part_indices.length)).1 = true := by
            apply h1.mpr
            intro index hm
            by_contra hb
            exact hcon ⟨index, hm, by omega⟩
          rw [hr] at this
          exact absurd this (by simp)
        · intro _; rfl
      · intro h; exact absurd h (by simp)
      · intro _ i index hi hall
        exact h5 i index hi hall
  · intro hnil
    simp [CombinedSymbol.loadFinished, hnil]

/-- Witness for C12: a two-symbol map, once with the indices 1, 0 and once with
the indices 1, 2, 0. -/
theorem loadFinished_spec_witness :
    CombinedSymbol.loadFinished ⟨[none, none], [1, 0]⟩ ⟨[10, 11]⟩ =
      (true, ⟨[some 11, some 10], []⟩) ∧
    CombinedSymbol.loadFinished ⟨[none, none], [1, 2, 0]⟩ ⟨[10, 11]⟩ =
      (false, ⟨[some 11, none, none], [1, 2, 0]⟩) ∧
    ((CombinedSymbol.loadFinished ⟨[none, none], [1, 2, 0]⟩ ⟨[10, 11]⟩).1 = false ↔
      ∃ index ∈ [(1 : Int), 2, 0], index < 0 ∨ Map.getNumSymbols ⟨[10, 11]⟩ ≤ index) :=
  ⟨by decide, by decide,
    ((loadFinished_spec ⟨[none, none], [1, 2, 0]⟩ ⟨[10, 11]⟩).1 (by decide)).1⟩

/-! ### Saving and loading a Combined symbol -/

theorem readInt_intBytes (v : Int) (h : InSigned 32 v) (rest : List Nat) :
    readInt (intBytes v ++ rest) = some (v, rest) := by
  unfold InSigned at h
  norm_num at h
  have hu : ((v % 2 ^ 32).toNat : Int) = v % 4294967296 := by
    rw [Int.toNat_of_nonneg (Int.emod_nonneg _ (by norm_num))]
    norm_num
  generalize hU : (v % 2 ^ 32).toNat = u at hu
  have hlt : u < 4294967296 := by omega
  have hsum : u % 256 + 256 * (u / 256 % 256) + 65536 * (u / 65536 % 256) +
      16777216 * (u / 16777216 % 256) = u := by omega
  simp only [intBytes, hU, readInt, List.cons_append, List.nil_append, hsum, Option.some.injEq,
    Prod.mk.injEq, and_true]
  unfold wrapInt
  norm_num
  omega

theorem loadImplLoop_intBytes (indices : List Int) (rest : List Nat)
    (h : ∀ index ∈ indices, InSigned 32 index) :
    loadImplLoop indices.length ((indices.map intBytes).flatten ++ rest) =
      some (indices, rest) := by
  induction indices with
  | nil => simp [loadImplLoop]
  | cons index more ih =>
    have h1 := readInt_intBytes index (h index (List.mem_cons_self _ _))
      ((more.map intBytes).flatten ++ rest)
    have h2 := ih (fun i hi => h i (List.mem_cons_of_mem _ hi))
    simp only [List.map_cons, List.flatten_cons, List.append_assoc, List.length_cons,
      loadImplLoop, h1, h2]

/-- The index `saveImpl` writes for a part slot. -/
theorem saveImpl_eq (self : CombinedSymbol) (map : Map) :
    self.saveImpl map = intBytes (self.parts.length : Int) ++
      ((self.parts.map (saveImplIndex map)).map intBytes).flatten := by
  simp [CombinedSymbol.saveImpl, List.map_map, Function.comp_def]

theorem Map.findSymbolIndex_range (map : Map) (symbol : Nat) :
    -1 ≤ map.findSymbolIndex symbol ∧ map.findSymbolIndex symbol < map.getNumSymbols := by
  unfold Map.findSymbolIndex Map.getNumSymbols
  split_ifs with h
  · have := List.indexOf_lt_length.mpr h
    omega
  · omega

theorem Map.getSymbol_findSymbolIndex (map : Map) (symbol : Nat) (h : symbol ∈ map.symbols) :
    0 ≤ map.findSymbolIndex symbol ∧ map.findSymbolIndex symbol < map.getNumSymbols ∧
    map.getSymbol (map.findSymbolIndex symbol) = some symbol := by
  have hlt := List.indexOf_lt_length.mpr h
  simp only [Map.findSymbolIndex, h, if_true, Map.getNumSymbols, Map.getSymbol, Int.toNat_ofNat]
  refine ⟨by omega, by omega, ?_⟩
  rw [List.getElem?_eq_getElem hlt]
  simp

/-- What `loadImpl` reads back from the bytes `saveImpl` wrote: the index list
holds -1 for every null slot and the map position of every other part. -/
theorem loadImpl_saveImpl (self target : CombinedSymbol) (map : Map)
    (hparts : self.parts.length < 2 ^ 31) (hmap : map.symbols.length < 2 ^ 31) :
    target.loadImpl (self.saveImpl map) =
      some (true,
        { target with temp_part_indices := self.parts.map (saveImplIndex map) }, []) := by
  have h1 := readInt_intBytes (self.parts.length : Int)
    (by unfold InSigned; norm_num at hparts ⊢; omega)
    ((self.parts.map (saveImplIndex map)).map intBytes).flatten
  have h2 := loadImplLoop_intBytes (self.parts.map (saveImplIndex map)) [] (by
      intro index hi
      simp only [List.mem_map] at hi
      obtain ⟨part, _, rfl⟩ := hi
      unfold InSigned
      norm_num at hmap ⊢
      cases part with
      | none => simp [saveImplIndex]
      | some symbol =>
        have := Map.findSymbolIndex_range map symbol
        unfold Map.getNumSymbols at this
        simp only [saveImplIndex]
        omega)
  simp only [List.append_nil, List.length_map] at h2
  simp only [CombinedSymbol.loadImpl, saveImpl_eq, h1]
  simp only [List.map_map] at h2
  simp [h2]

theorem loadFinished_of_inRange (self : CombinedSymbol) (map : Map)
    (hne : self.temp_part_indices ≠ [])
    (hall : ∀ index ∈ self.temp_part_indices, 0 ≤ index ∧ index < map.getNumSymbols) :
    self.loadFinished map =
      (true, { parts := self.temp_part_indices.map map.getSymbol, temp_part_indices := [] }) := by
  have hsize : self.temp_part_indices.length ≠ 0 := by
    simpa [List.length_eq_zero] using hne
  obtain ⟨h1, h2, _, _, h5⟩ := loadFinishedLoop_spec map self.temp_part_indices 0
    (vectorResize none self.parts self.temp_part_indices.length)
    (by rw [vectorResize_length]; omega)
  rw [vectorResize_length] at h2
  simp only [Nat.zero_add] at h5
  have hr := h1.mpr hall
  have hparts : (loadFinishedLoop map self.temp_part_indices 0
        (vectorResize none self.parts self.temp_part_indices.length)).2 =
      self.temp_part_indices.map map.getSymbol := by
    apply List.ext_getElem?
    intro k
    by_cases hk : k < self.temp_part_indices.length
    · rw [h5 k self.temp_part_indices[k] (List.getElem?_eq_getElem hk)
        (fun j jndex _ hj => hall jndex (List.getElem?_mem hj))]
      simp [List.getElem?_eq_getElem hk]
    · rw [List.getElem?_eq_none (by omega), List.getElem?_eq_none (by simp; omega)]
  simp [CombinedSymbol.loadFinished, hsize, hr, hparts]

theorem loadFinished_of_outOfRange (self : CombinedSymbol) (map : Map)
    (hbad : ∃ index ∈ self.temp_part_indices, index < 0 ∨ map.getNumSymbols ≤ index) :
    (self.loadFinished map).1 = false := by
  obtain ⟨index, hm, hb⟩ := hbad
  have hsize : self.temp_part_indices.length ≠ 0 := by
    intro h0
    rw [List.length_eq_zero.mp h0] at hm
    exact absurd hm (List.not_mem_nil _)
  obtain ⟨h1, _⟩ := loadFinishedLoop_spec map self.temp_part_indices 0
    (vectorResize none self.parts self.temp_part_indices.length)
    (by rw [vectorResize_length]; omega)
  have hr : (loadFinishedLoop map self.temp_part_indices 0
      (vectorResize none self.parts self.temp_part_indices.length)).1 = false := by
    cases hc : (loadFinishedLoop map self.temp_part_indices 0
      (vectorResize none self.parts self.temp_part_indices.length)).1 with
    | false => rfl
    | true =>
      have := h1.mp hc index hm
      omega
  simp [CombinedSymbol.loadFinished, hsize, hr]

/-- When every part slot holds a symbol of the map, saving and loading gives the
parts back: `loadImpl` reads the positions, `loadFinished` returns true and
wires the same parts. -/
theorem saveLoad_of_nonnull (self target : CombinedSymbol) (map : Map)
    (hparts : self.parts.length < 2 ^ 31) (hmap : map.symbols.length < 2 ^ 31)
    (hne : self.parts ≠ [])
    (hall : ∀ part ∈ self.parts, ∃ a, part = some a ∧ a ∈ map.symbols) :
    ∃ loaded, target.loadImpl (self.saveImpl map) = some (true, loaded, []) ∧
      loaded.loadFinished map = (true, { parts := self.parts, temp_part_indices := [] }) := by
  refine ⟨_, loadImpl_saveImpl self target map hparts hmap, ?_⟩
  rw [loadFinished_of_inRange]
  · simp only [List.map_map, Prod.mk.injEq, CombinedSymbol.mk.injEq, and_true, true_and]
    apply List.ext_getElem?
    intro k
    simp only [List.getElem?_map]
    cases hk : self.parts[k]? with
    | none => rfl
    | some part =>
      obtain ⟨a, rfl, ha⟩ := hall part (List.getElem?_mem hk)
      simp [saveImplIndex, (Map.getSymbol_findSymbolIndex map a ha).2.2]
  · simpa using hne
  · intro index hi
    simp only [List.mem_map] at hi
    obtain ⟨part, hp, rfl⟩ := hi
    obtain ⟨a, rfl, ha⟩ := hall part hp
    have := Map.getSymbol_findSymbolIndex map a ha
    exact ⟨this.1, this.2.1⟩

/-- When some part slot is empty, the saved symbol does not load: `loadImpl`
reads -1 for the slot and `loadFinished` returns false. -/
theorem saveLoad_of_null (self target : CombinedSymbol) (map : Map)
    (hparts : self.parts.length < 2 ^ 31) (hmap : map.symbols.length < 2 ^ 31)
    (hnull : none ∈ self.parts) :
    ∃ loaded, target.loadImpl (self.saveImpl map) = some (true, loaded, []) ∧
      (loaded.loadFinished map).1 = false := by
  refine ⟨_, loadImpl_saveImpl self target map hparts hmap, ?_⟩
  apply loadFinished_of_outOfRange
  refine ⟨-1, ?_, Or.inl (by norm_num)⟩
  simp only [List.mem_map]
  exact ⟨none, hnull, rfl⟩

/-- C16, evaluated at the freshly constructed Combined symbol (two empty slots)
and a map of two symbols: `saveImpl` writes the size 2 and the index -1 twice,
`loadImpl` reads them back, and `loadFinished` returns false, leaving the index
list in place. -/
theorem saveLoad_fresh_fails :
    CombinedSymbol.new.parts = [none, none] ∧
    CombinedSymbol.new.saveImpl ⟨[10, 11]⟩ =
      [2, 0, 0, 0, 255, 255, 255, 255, 255, 255, 255, 255] ∧
    CombinedSymbol.new.loadImpl (CombinedSymbol.new.saveImpl ⟨[10, 11]⟩) =
      some (true, ⟨[none, none], [-1, -1]⟩, []) ∧
    CombinedSymbol.loadFinished ⟨[none, none], [-1, -1]⟩ ⟨[10, 11]⟩ =
      (false, ⟨[none, none], [-1, -1]⟩) := by
  decide

/-! ### Recursion through the parts of a Combined symbol -/

theorem containsSymbolLoop_ne_outOfFuel (heap : Heap) (recurse : CombinedSymbol → Outcome Bool)
    (symbol : SymbolPtr) (parts : List SymbolPtr)
    (h : ∀ address c, some address ∈ parts → heap address = Symbol.combined c →
      recurse c ≠ Outcome.outOfFuel) :
    containsSymbolLoop heap recurse symbol parts ≠ Outcome.outOfFuel := by
  induction parts with
  | nil => simp [containsSymbolLoop]
  | cons part rest ih =>
    have ih' := ih (fun a c hm => h a c (List.mem_cons_of_mem _ hm))
    unfold containsSymbolLoop
    split_ifs with hp
    · simp
    · cases part with
      | none => simp
      | some address =>
        cases hh : heap address with
        | plain t cs => simpa [hh] using ih'
        | combined c =>
          have hc := h address c (List.mem_cons_self _ _) hh
          simp only [hh]
          cases hr : recurse c with
          | done b => cases b <;> simp [ih']
          | nullDeref => simp
          | outOfFuel => exact absurd hr hc

theorem getContainedTypesLoop_done (heap : Heap) (recurse : CombinedSymbol → Outcome Nat)
    (parts : List SymbolPtr)
    (h : ∀ address c, some address ∈ parts → heap address = Symbol.combined c →
      ∃ t, recurse c = Outcome.done t) :
    ∀ type, ∃ t, getContainedTypesLoop heap recurse type parts = Outcome.done t := by
  induction parts with
  | nil => intro type; exact ⟨type, by simp [getContainedTypesLoop]⟩
  | cons part rest ih =>
    have ih' := ih (fun a c hm => h a c (List.mem_cons_of_mem _ hm))
    intro type
    unfold getContainedTypesLoop
    cases part with
    | none => exact ih' type
    | some address =>
      cases hh : heap address with
      | plain t cs => simpa [hh] using ih' _
      | combined c =>
        obtain ⟨t, ht⟩ := h address c (List.mem_cons_self _ _) hh
        simp only [hh, ht]
        exact ih' _

theorem containsSymbol_ne_outOfFuel (heap : Heap) (rank : Nat → Nat) (hr : Ranked heap rank)
    (symbol : SymbolPtr) :
    ∀ fuel address self, heap address = Symbol.combined self → rank address < fuel →
      CombinedSymbol.containsSymbol heap fuel self symbol ≠ Outcome.outOfFuel := by
  intro fuel
  induction fuel with
  | zero => intro address self _ h; exact absurd h (Nat.not_lt_zero _)
  | succ fuel ih =>
    intro address self hs hlt
    unfold CombinedSymbol.containsSymbol
    apply containsSymbolLoop_ne_outOfFuel
    intro a c hm hc
    exact ih a c hc (by have := hr address self hs a hm; omega)

theorem getContainedTypes_done (heap : Heap) (rank : Nat → Nat) (hr : Ranked heap rank) :
    ∀ fuel address self, heap address = Symbol.combined self → rank address < fuel →
      ∃ t, CombinedSymbol.getContainedTypes heap fuel self = Outcome.done t := by
  intro fuel
  induction fuel with
  | zero => intro address self _ h; exact absurd h (Nat.not_lt_zero _)
  | succ fuel ih =>
    intro address self hs hlt
    unfold CombinedSymbol.getContainedTypes
    apply getContainedTypesLoop_done
    intro a c hm hc
    exact ih a c hc (by have := hr address self hs a hm; omega)

theorem RankedBelow.inner {heap : Heap} {rank : Nat → Nat} {self inner : CombinedSymbol}
    {part : Nat} (hr : RankedBelow heap rank self) (hm : some part ∈ self.parts)
    (hc : heap part = Symbol.combined inner) :
    RankedBelow heap rank inner ∧ ∀ b, some b ∈ inner.parts → rank b < rank part :=
  ⟨fun address c b hreach hheap hb =>
      hr address c b (PartOf.through hm hc hreach) hheap hb,
    fun b hb => hr part inner b (PartOf.direct hm) hc hb⟩

theorem getContainedTypesLoop_done_inv (heap : Heap) (recurse : CombinedSymbol → Outcome Nat)
    (parts : List SymbolPtr) :
    ∀ type t, getContainedTypesLoop heap recurse type parts = Outcome.done t →
      ∀ p c, some p ∈ parts → heap p = Symbol.combined c → ∃ t1, recurse c = Outcome.done t1 := by
  induction parts with
  | nil => intro _ _ _ p c hp; exact absurd hp (List.not_mem_nil _)
  | cons part rest ih =>
    intro type t hdone p c hp hc
    unfold getContainedTypesLoop at hdone
    cases part with
    | none =>
      rcases List.mem_cons.mp hp with h | h
      · exact absurd h (by simp)
      · exact ih type t hdone p c h hc
    | some address =>
      cases hh : heap address with
      | plain pt cs =>
        simp only [hh] at hdone
        rcases List.mem_cons.mp hp with h | h
        · have : p = address := Option.some.inj h
          subst this
          rw [hh] at hc
          exact absurd hc (by simp)
        · exact ih _ t hdone p c h hc
      | combined inner =>
        simp only [hh] at hdone
        cases hr : recurse inner with
        | done t1 =>
          simp only [hr] at hdone
          rcases List.mem_cons.mp hp with h | h
          · have : p = address := Option.some.inj h
            subst this
            rw [hh] at hc
            have : inner = c := Symbol.combined.inj hc
            subst this
            exact ⟨t1, hr⟩
          · exact ih _ t hdone p c h hc
        | nullDeref => simp [hr] at hdone
        | outOfFuel => simp [hr] at hdone

/-- When `getContainedTypes` ends on `self`, it ends at a smaller depth on
every Combined symbol that `self` reaches. -/
theorem getContainedTypes_done_below (heap : Heap) (self : CombinedSymbol) (address : Nat)
    (hreach : PartOf heap self address) :
    ∀ fuel t inner, CombinedSymbol.getContainedTypes heap fuel self = Outcome.done t →
      heap address = Symbol.combined inner →
      ∃ f t1, f < fuel ∧ CombinedSymbol.getContainedTypes heap f inner = Outcome.done t1 := by
  induction hreach with
  | direct hm =>
    intro fuel t inner hdone hc
    cases fuel with
    | zero => simp [CombinedSymbol.getContainedTypes] at hdone
    | succ k =>
      unfold CombinedSymbol.getContainedTypes at hdone
      obtain ⟨t1, h1⟩ := getContainedTypesLoop_done_inv heap _ _ _ t hdone _ inner hm hc
      exact ⟨k, t1, Nat.lt_succ_self k, h1⟩
  | through hm hc0 _ ih =>
    intro fuel t inner hdone hc
    cases fuel with
    | zero => simp [CombinedSymbol.getContainedTypes] at hdone
    | succ k =>
      unfold CombinedSymbol.getContainedTypes at hdone
      obtain ⟨t1, h1⟩ := getContainedTypesLoop_done_inv heap _ _ _ t hdone _ _ hm hc0
      obtain ⟨f, t2, hf, h2⟩ := ih k t1 inner h1 hc
      exact ⟨f, t2, by omega, h2⟩

/-- For `getContainedTypes` the rank is also necessary: when the call ends on
`self` at some depth, the least depth at which it ends on a symbol is a rank that
decreases below `self`. -/
theorem rankedBelow_of_getContainedTypes_done (heap : Heap) (self : CombinedSymbol)
    (fuel t : Nat) (hdone : CombinedSymbol.getContainedTypes heap fuel self = Outcome.done t) :
    ∃ rank, RankedBelow heap rank self := by
  classical
  refine ⟨fun a =>
    if h : ∃ f c t1, heap a = Symbol.combined c ∧
        CombinedSymbol.getContainedTypes heap f c = Outcome.done t1
    then Nat.find h else 0, ?_⟩
  intro address inner part hreach hc hpart
  obtain ⟨f0, t0, _, h0⟩ := getContainedTypes_done_below heap self address hreach fuel t inner
    hdone hc
  have ha : ∃ f c t1, heap address = Symbol.combined c ∧
      CombinedSymbol.getContainedTypes heap f c = Outcome.done t1 := ⟨f0, inner, t0, hc, h0⟩
  simp only [dif_pos ha]
  obtain ⟨c, t1, hc1, hd1⟩ := Nat.find_spec ha
  have hci : c = inner := by
    rw [hc] at hc1
    exact (Symbol.combined.inj hc1).symm
  subst hci
  cases hk : Nat.find ha with
  | zero =>
    rw [hk] at hd1
    simp [CombinedSymbol.getContainedTypes] at hd1
  | succ k =>
    rw [hk] at hd1
    unfold CombinedSymbol.getContainedTypes at hd1
    by_cases hp : ∃ f c t1, heap part = Symbol.combined c ∧
        CombinedSymbol.getContainedTypes heap f c = Outcome.done t1
    · simp only [dif_pos hp]
      obtain ⟨_, cp, _, hcp, _⟩ := id hp
      obtain ⟨t2, h2⟩ := getContainedTypesLoop_done_inv heap _ _ _ t1 hd1 part cp hpart hcp
      have : Nat.find hp ≤ k := Nat.find_min' hp ⟨cp, t2, hcp, h2⟩
      omega
    · simp only [dif_neg hp]
      omega

/-- C17, evaluated at the freshly constructed Combined symbol (both slots
null), in any heap: `containsColor` dereferences the null first slot, and so
does `containsSymbol` for every non-null queried symbol. -/
theorem containsColor_fresh_nullDeref (heap : Heap) (fuel color symbol : Nat) :
    CombinedSymbol.new.parts = [none, none] ∧
    CombinedSymbol.containsColor heap (fuel + 1) CombinedSymbol.new color = Outcome.nullDeref ∧
    CombinedSymbol.containsSymbol heap (fuel + 1) CombinedSymbol.new (some symbol) =
      Outcome.nullDeref := by
  refine ⟨by decide, ?_, ?_⟩
  · simp [CombinedSymbol.containsColor, CombinedSymbol.new, vectorResize, containsColorLoop]
  · simp [CombinedSymbol.containsSymbol, CombinedSymbol.new, vectorResize, containsSymbolLoop]

theorem containsSymbolLoop_done (heap : Heap) (recurse : CombinedSymbol → Outcome Bool)
    (symbol : SymbolPtr) (parts : List SymbolPtr) (hnn : none ∉ parts)
    (h : ∀ address c, some address ∈ parts → heap address = Symbol.combined c →
      ∃ b, recurse c = Outcome.done b) :
    ∃ b, containsSymbolLoop heap recurse symbol parts = Outcome.done b := by
  induction parts with
  | nil => exact ⟨false, by simp [containsSymbolLoop]⟩
  | cons part rest ih =>
    have ih' := ih (fun hm => hnn (List.mem_cons_of_mem _ hm))
      (fun a c hm => h a c (List.mem_cons_of_mem _ hm))
    unfold containsSymbolLoop
    split_ifs with hp
    · exact ⟨true, rfl⟩
    · cases part with
      | none => exact absurd (List.mem_cons_self _ _) hnn
      | some address =>
        cases hh : heap address with
        | plain t cs => simpa [hh] using ih'
        | combined c =>
          obtain ⟨b, hb⟩ := h address c (List.mem_cons_self _ _) hh
          simp only [hh, hb]
          cases b
          · simpa using ih'
          · exact ⟨true, rfl⟩

theorem containsColorLoop_done (heap : Heap) (recurse : CombinedSymbol → Outcome Bool)
    (color : Nat) (parts : List SymbolPtr) (hnn : none ∉ parts)
    (h : ∀ address c, some address ∈ parts → heap address = Symbol.combined c →
      ∃ b, recurse c = Outcome.done b) :
    ∃ b, containsColorLoop heap recurse color parts = Outcome.done b := by
  induction parts with
  | nil => exact ⟨false, by simp [containsColorLoop]⟩
  | cons part rest ih =>
    have ih' := ih (fun hm => hnn (List.mem_cons_of_mem _ hm))
      (fun a c hm => h a c (List.mem_cons_of_mem _ hm))
    unfold containsColorLoop
    cases part with
    | none => exact absurd (List.mem_cons_self _ _) hnn
    | some address =>
      cases hh : heap address with
      | plain t cs =>
        simp only [hh]
        split_ifs
        · exact ⟨true, rfl⟩
        · exact ih'
      | combined c =>
        obtain ⟨b, hb⟩ := h address c (List.mem_cons_self _ _) hh
        simp only [hh, hb]
        cases b
        · simpa using ih'
        · exact ⟨true, rfl⟩

/-- In a heap without cycle in which no Combined symbol has a null part slot,
`containsSymbol` and `containsColor` return a value for every Combined
symbol. -/
theorem contains_done_of_no_null (heap : Heap) (rank : Nat → Nat) (hr : Ranked heap rank)
    (hnn : ∀ address self, heap address = Symbol.combined self → none ∉ self.parts)
    (symbol : SymbolPtr) (color : Nat) :
    ∀ fuel address self, heap address = Symbol.combined self → rank address < fuel →
      (∃ b, CombinedSymbol.containsSymbol heap fuel self symbol = Outcome.done b) ∧
      (∃ b, CombinedSymbol.containsColor heap fuel self color = Outcome.done b) := by
  intro fuel
  induction fuel with
  | zero => intro address self _ h; exact absurd h (Nat.not_lt_zero _)
  | succ fuel ih =>
    intro address self hs hlt
    constructor
    · unfold CombinedSymbol.containsSymbol
      apply containsSymbolLoop_done _ _ _ _ (hnn address self hs)
      intro a c hm hc
      exact (ih a c hc (by have := hr address self hs a hm; omega)).1
    · unfold CombinedSymbol.containsColor
      apply containsColorLoop_done _ _ _ _ (hnn address self hs)
      intro a c hm hc
      exact (ih a c hc (by have := hr address self hs a hm; omega)).2

/-! ### `convertOcdString` on a null-terminated buffer -/

theorem qstrnlenFrom_eq (str : List Nat) :
    ∀ remaining length, length + remaining ≤ str.length →
      qstrnlenFrom str remaining length =
        some (length + (((str.drop length).take remaining).takeWhile isNonZeroByte).length) := by
  intro remaining
  induction remaining with
  | zero => intro length _; simp [qstrnlenFrom]
  | succ remaining ih =>
    intro length h
    have hlt : length < str.length := by omega
    have hd : str.drop length = str[length] :: str.drop (length + 1) :=
      List.drop_eq_getElem_cons hlt
    rw [qstrnlenFrom, List.getElem?_eq_getElem hlt, hd, List.take_succ_cons]
    by_cases hz : str[length] = 0
    · have : isNonZeroByte str[length] = false := by simp [isNonZeroByte, hz]
      simp only [hz, if_true, List.takeWhile_cons]
      rw [hz] at this
      simp [this]
    · have : isNonZeroByte str[length] = true := by simp [isNonZeroByte, hz]
      simp only [hz, if_false, List.takeWhile_cons, this, if_true, List.length_cons]
      rw [ih (length + 1) (by omega)]
      congr 1
      omega

theorem take_length_takeWhile {α : Type} (p : α → Bool) (l : List α) :
    l.take (l.takeWhile p).length = l.takeWhile p := by
  induction l with
  | nil => simp
  | cons a t ih =>
    by_cases h : p a = true
    · simp [List.takeWhile_cons, h, ih]
    · simp [List.takeWhile_cons, h]

theorem length_takeWhile_le_length {α : Type} (p : α → Bool) (l : List α) :
    (l.takeWhile p).length ≤ l.length := by
  induction l with
  | nil => simp
  | cons a t ih =>
    by_cases h : p a = true
    · simp [List.takeWhile_cons, h, ih]
    · simp [List.takeWhile_cons, h]

theorem takeWhile_eq_self_of_all {α : Type} (p : α → Bool) (l : List α)
    (h : ∀ a ∈ l, p a = true) : l.takeWhile p = l := by
  induction l with
  | nil => simp
  | cons a t ih =>
    have ha := h a (List.mem_cons_self _ _)
    simp [List.takeWhile_cons, ha, ih (fun b hb => h b (List.mem_cons_of_mem _ hb))]

theorem takeWhile_take_of_zero (l : List Nat) :
    ∀ k, l[k]? = some 0 →
      l.takeWhile isNonZeroByte = (l.take (k + 1)).takeWhile isNonZeroByte := by
  induction l with
  | nil => intro k h; simp at h
  | cons a t ih =>
    intro k h
    cases k with
    | zero =>
      simp only [List.getElem?_cons_zero, Option.some.injEq] at h
      subst h
      simp [List.takeWhile_cons, isNonZeroByte]
    | succ k =>
      simp only [List.getElem?_cons_succ] at h
      by_cases ha : isNonZeroByte a = true
      · simp only [List.take_succ_cons, List.takeWhile_cons, ha, if_true]
        rw [ih k h]
      · simp [List.takeWhile_cons, ha]

theorem takeWhile_take_of_length_le {α : Type} (p : α → Bool) (l : List α) :
    ∀ m, (l.takeWhile p).length ≤ m → (l.take m).takeWhile p = l.takeWhile p := by
  induction l with
  | nil => intro m _; simp
  | cons a t ih =>
    intro m hm
    by_cases ha : p a = true
    · simp only [List.takeWhile_cons, ha, if_true, List.length_cons] at hm ⊢
      cases m with
      | zero => omega
      | succ m =>
        simp only [List.take_succ_cons, List.takeWhile_cons, ha, if_true]
        rw [ih m (by omega)]
    · cases m with
      | zero => simp [List.takeWhile_cons, ha]
      | succ m => simp [List.takeWhile_cons, ha]

theorem latin1Decoder_decodesPrefix :
    DecodesPrefix latin1Decoder (fun bytes => String.mk (bytes.map Char.ofNat)) := by
  intro src len _
  simp [latin1Decoder]

/-- The result of `convertOcdString` when the number `n` of bytes before the first
zero byte among the first `len` (`len` when none is zero) survives the two
conversions of the length: `n <= len mod 2^32` and `n < 2^31`. -/
theorem convertOcdString_eq (decoder : List Nat → Int → Option String)
    (decode : List Nat → String) (hdec : DecodesPrefix decoder decode)
    (src : List Nat) (len : Nat) (h : len ≤ src.length)
    (huint : ((src.take len).takeWhile isNonZeroByte).length ≤ len % 2 ^ 32)
    (hint : ((src.take len).takeWhile isNonZeroByte).length < 2 ^ 31) :
    convertOcdString decoder src len =
      some (decode ((src.take len).takeWhile isNonZeroByte)) := by
  have hmle : len % 2 ^ 32 ≤ len := Nat.mod_le _ _
  have h1 := qstrnlenFrom_eq src (len % 2 ^ 32) 0 (by omega)
  simp only [List.drop_zero, Nat.zero_add] at h1
  have hwin : (src.take (len % 2 ^ 32)).takeWhile isNonZeroByte =
      (src.take len).takeWhile isNonZeroByte := by
    have := takeWhile_take_of_length_le isNonZeroByte (src.take len) (len % 2 ^ 32) huint
    rw [List.take_take, Nat.min_eq_left hmle] at this
    exact this
  rw [hwin] at h1
  have hle : ((src.take len).takeWhile isNonZeroByte).length ≤ len := by omega
  have h2 : src.take ((src.take len).takeWhile isNonZeroByte).length =
      (src.take len).takeWhile isNonZeroByte := by
    have e := take_length_takeWhile isNonZeroByte (src.take len)
    rw [List.take_take, Nat.min_eq_left hle] at e
    exact e
  have hw : wrapInt 32 (((src.take len).takeWhile isNonZeroByte).length : Int) =
      (((src.take len).takeWhile isNonZeroByte).length : Int) := by
    apply wrapInt_of_inSigned (by norm_num)
    unfold InSigned
    norm_num at hint ⊢
    omega
  simp only [convertOcdString, qstrnlen, h1, hw]
  rw [hdec src _ hint, readBytes, if_pos (by omega), h2]
  rfl

/-- A declared length below `2^31` survives both conversions. -/
theorem convertOcdString_of_lt (decoder : List Nat → Int → Option String)
    (decode : List Nat → String) (hdec : DecodesPrefix decoder decode)
    (src : List Nat) (len : Nat) (h : len ≤ src.length) (hlen : len < 2 ^ 31) :
    convertOcdString decoder src len =
      some (decode ((src.take len).takeWhile isNonZeroByte)) := by
  have hle : ((src.take len).takeWhile isNonZeroByte).length ≤ len := by
    have := length_takeWhile_le_length isNonZeroByte (src.take len)
    simp only [List.length_take] at this
    omega
  have hmod : len % 2 ^ 32 = len := Nat.mod_eq_of_lt (by norm_num at hlen ⊢; omega)
  exact convertOcdString_eq decoder decode hdec src len h (by rw [hmod]; exact hle) (by omega)

/-- A buffer that starts with "Hi" and is zero from position 2 on, with a
declared length that is 1 modulo `2^32`: the bytes before the first zero are
"Hi", `convertOcdString` decodes "H". -/
theorem convertOcdString_of_length_one_mod (n : Nat) (hn : 2 ≤ n) (hmod : (n + 1) % 2 ^ 32 = 1) :
    n + 1 ≤ (72 :: 105 :: List.replicate n 0).length ∧
    ((72 :: 105 :: List.replicate n 0).take (n + 1)).takeWhile isNonZeroByte = [72, 105] ∧
    convertOcdString latin1Decoder (72 :: 105 :: List.replicate n 0) (n + 1) = some "H" := by
  obtain ⟨m, rfl⟩ : ∃ m, n = m + 2 := ⟨n - 2, by omega⟩
  refine ⟨?_, ?_, ?_⟩
  · rw [List.length_cons, List.length_cons, List.length_replicate]
    omega
  · rw [show m + 2 + 1 = (m + 1) + 1 + 1 from rfl, List.take_succ_cons, List.take_succ_cons,
      List.replicate_succ, List.take_succ_cons]
    simp [List.takeWhile_cons, isNonZeroByte]
  · have hq : qstrnlen (72 :: 105 :: List.replicate (m + 2) 0) (m + 2 + 1) = some 1 := by
      rw [qstrnlen, hmod]
      simp [qstrnlenFrom]
    have hw : wrapInt 32 ((1 : Nat) : Int) = 1 := by decide
    rw [convertOcdString, hq]
    simp only [hw]
    have hr : readBytes (72 :: 105 :: List.replicate (m + 2) 0) 1 = some [72] := by
      rw [readBytes, if_pos (by rw [List.length_cons]; omega)]
      rfl
    have h1 : ((1 : Int)).toNat = 1 := rfl
    rw [latin1Decoder, if_neg (by decide), h1, hr]
    decide

/-- C14 as stated fails for a declared length of `2^32 + 1`: in a buffer of
`2^32 + 2` bytes that starts with "Hi" and is zero from position 2 on, the bytes
before the first zero among the first `len` are "Hi", but `qstrnlen` receives the
length `1` and `convertOcdString` decodes "H". The same happens on the
three-byte buffer "Hi\0". -/
theorem convertOcdString_narrows_length :
    (4294967296 + 1 ≤ (72 :: 105 :: List.replicate 4294967296 0).length ∧
      ((72 :: 105 :: List.replicate 4294967296 0).take (4294967296 + 1)).takeWhile
        isNonZeroByte = [72, 105] ∧
      convertOcdString latin1Decoder (72 :: 105 :: List.replicate 4294967296 0)
        (4294967296 + 1) = some "H") ∧
    convertOcdString latin1Decoder [72, 105, 0] 4294967297 = some "H" ∧
    String.mk ([72, 105].map Char.ofNat) = "Hi" :=
  ⟨convertOcdString_of_length_one_mod 4294967296 (by norm_num) (by norm_num),
    by decide, by decide⟩

/-- C14, amended: for every buffer holding at least `len` bytes, with `n` the
number of bytes before the first zero byte among the first `len` (`len` when
none is zero), whenever `n <= len mod 2^32` and `n < 2^31` (so whenever
`len < 2^31`), `convertOcdString(src, len)` (either variant, `decoder` being its
decoder) decodes exactly these `n` bytes; it reads no position `>= len` (it
gives the same result on the buffer cut to `len` bytes, outside of which every
read is an error); and the bytes after the first zero byte have no influence. -/
theorem convertOcdString_spec (decoder : List Nat → Int → Option String)
    (decode : List Nat → String) (hdec : DecodesPrefix decoder decode)
    (src : List Nat) (len : Nat) (h : len ≤ src.length)
    (huint : ((src.take len).takeWhile isNonZeroByte).length ≤ len % 2 ^ 32)
    (hint : ((src.take len).takeWhile isNonZeroByte).length < 2 ^ 31) :
    convertOcdString decoder src len =
      some (decode ((src.take len).takeWhile isNonZeroByte)) ∧
    ((∀ b ∈ src.take len, b ≠ 0) →
      convertOcdString decoder src len = some (decode (src.take len))) ∧
    (∀ k, k < len → src[k]? = some 0 → (∀ j, j < k → src[j]? ≠ some 0) →
      convertOcdString decoder src len = some (decode (src.take k))) ∧
    convertOcdString decoder (src.take len) len = convertOcdString decoder src len ∧
    (∀ (k : Nat) (other : List Nat), k < len → src[k]? = some 0 → len ≤ other.length →
      other.take (k + 1) = src.take (k + 1) →
      convertOcdString decoder other len = convertOcdString decoder src len) := by
  have hmain := convertOcdString_eq decoder decode hdec src len h huint hint
  refine ⟨hmain, ?_, ?_, ?_, ?_⟩
  · intro hall
    rw [hmain, takeWhile_eq_self_of_all]
    intro b hb
    simpa [isNonZeroByte] using hall b hb
  · intro k hk hz hbefore
    rw [hmain]
    have hz' : (src.take len)[k]? = some 0 := by
      rw [List.getElem?_take_of_lt hk]; exact hz
    rw [takeWhile_take_of_zero _ k hz', List.take_take, Nat.min_eq_left (by omega)]
    have hklt : k < src.length := by omega
    have hk0 : src[k] = 0 := by
      rw [List.getElem?_eq_getElem hklt] at hz
      exact Option.some.inj hz
    have hall : (src.take k).takeWhile isNonZeroByte = src.take k := by
      apply takeWhile_eq_self_of_all
      intro b hb
      obtain ⟨j, hj, hjb⟩ := List.getElem_of_mem hb
      simp only [List.length_take] at hj
      have hj' : j < k := by omega
      have := hbefore j hj'
      rw [List.getElem?_eq_getElem (by omega)] at this
      simp only [List.getElem_take] at hjb
      simp only [isNonZeroByte, ne_eq, decide_eq_true_eq]
      intro hb0
      exact this (by rw [hjb, hb0])
    have hsplit : src.take (k + 1) = src.take k ++ [0] := by
      rw [List.take_succ, List.getElem?_eq_getElem hklt, hk0]
      rfl
    have hnil : List.takeWhile isNonZeroByte [0] = [] := by
      simp [List.takeWhile_cons, isNonZeroByte]
    rw [hsplit, List.takeWhile_append, hall]
    simp [hnil]
  · have hself : (src.take len).take len = src.take len := by
      rw [List.take_take, Nat.min_self]
    rw [hmain, convertOcdString_eq decoder decode hdec (src.take len) len (by simp; omega)
      (by rw [hself]; exact huint) (by rw [hself]; exact hint), hself]
  · intro k other hk hz hlen hagree
    have hz' : (src.take len)[k]? = some 0 := by
      rw [List.getElem?_take_of_lt hk]; exact hz
    have hzo : (other.take len)[k]? = some 0 := by
      rw [List.getElem?_take_of_lt hk]
      have : (other.take (k + 1))[k]? = (src.take (k + 1))[k]? := by rw [hagree]
      rw [List.getElem?_take_of_lt (Nat.lt_succ_self k),
        List.getElem?_take_of_lt (Nat.lt_succ_self k)] at this
      rw [this]; exact hz
    have hsame : (other.take len).takeWhile isNonZeroByte =
        (src.take len).takeWhile isNonZeroByte := by
      rw [takeWhile_take_of_zero _ k hz', takeWhile_take_of_zero _ k hzo, List.take_take,
        List.take_take, Nat.min_eq_left (by omega), hagree]
    rw [hmain, convertOcdString_eq decoder decode hdec other len hlen
      (by rw [hsame]; exact huint) (by rw [hsame]; exact hint), hsame]

/-- Witness for the amended C14: a buffer of six bytes with declared length 5
and a zero at position 2; what follows the zero, and the byte at position 5,
play no part. -/
theorem convertOcdString_spec_witness :
    convertOcdString latin1Decoder [72, 105, 0, 88, 89, 90] 5 = some "Hi" ∧
    convertOcdString latin1Decoder [72, 105, 0, 88, 89] 5 =
      convertOcdString latin1Decoder [72, 105, 0, 88, 89, 90] 5 :=
  ⟨((convertOcdString_spec latin1Decoder _ latin1Decoder_decodesPrefix
      [72, 105, 0, 88, 89, 90] 5 (by decide) (by decide) (by decide)).2.2.1 2 (by decide)
        (by decide) (by decide)).trans (by decide),
    (convertOcdString_spec latin1Decoder _ latin1Decoder_decodesPrefix
      [72, 105, 0, 88, 89, 90] 5 (by decide) (by decide) (by decide)).2.2.2.1⟩

/-! ### `radToDMS` -/

theorem cDiv_cRem_of_nonneg {a b : Int} (ha : 0 ≤ a) (hb : 0 < b) :
    cDiv a b = a / b ∧ cRem a b = a % b :=
  ⟨Int.tdiv_eq_ediv ha (le_of_lt hb), Int.tmod_eq_emod ha (le_of_lt hb)⟩

theorem cDiv_cRem_of_nonpos {a b : Int} (ha : a ≤ 0) (hb : 0 < b) :
    cDiv a b = -((-a) / b) ∧ cRem a b = -((-a) % b) := by
  have hn : 0 ≤ -a := by omega
  have h1 : (-a).tdiv b = (-a) / b := Int.tdiv_eq_ediv hn (le_of_lt hb)
  have h2 : (-a).tmod b = (-a) % b := Int.tmod_eq_emod hn (le_of_lt hb)
  have h3 : a.tdiv b = -((-a).tdiv b) := by rw [Int.neg_tdiv, neg_neg]
  have h4 : a.tmod b = a - b * a.tdiv b := Int.tmod_def a b
  have h5 : (-a).tmod b = -a - b * (-a).tdiv b := Int.tmod_def (-a) b
  unfold cDiv cRem
  refine ⟨by rw [h3, h1], ?_⟩
  rw [h4, h3, h1, ← h2, h5, h1]
  ring

/-- C15 as stated fails for a negative angle: for `t = -1` ticks the
centiseconds are -1, not in `0 <= c < 6000`. -/
theorem radToDMSParts_neg_one :
    InSigned 64 (-1) ∧ radToDMSParts (-1) = (0, 0, -1) ∧
    ¬ (0 ≤ (radToDMSParts (-1)).2.2 ∧ (radToDMSParts (-1)).2.2 < 6000) := by
  decide

/-- C15, amended: for every angle of `t` ticks of 1/100 arcsecond whose whole
degrees fit an `int`, `radToDMS` decomposes `t` into `d`, `m`, `c` with
`t = 360000 * d + 6000 * m + c`, `|m| < 60` and `|c| < 6000`, none of them of the
sign opposite to `t` (so `0 <= m < 60` and `0 <= c < 6000` when `t >= 0`), and
renders `d`, `m` and `c / 100` (two decimals, by the locale) as the degrees,
minutes and seconds of the string. -/
theorem radToDMS_spec {R : Type} [LinearOrderedField R] (env : Env R) (toInt64 : R → Int)
    (localeToString : R → String) (val : R) (t : Int)
    (ht : toInt64 (env.RAD_TO_DEG * val * 360000) = t)
    (hlo : -(2 ^ 31) * 360000 ≤ t) (hhi : t < 2 ^ 31 * 360000) :
    t = 360000 * (radToDMSParts t).1 + 6000 * (radToDMSParts t).2.1 + (radToDMSParts t).2.2 ∧
    (-60 < (radToDMSParts t).2.1 ∧ (radToDMSParts t).2.1 < 60) ∧
    (-6000 < (radToDMSParts t).2.2 ∧ (radToDMSParts t).2.2 < 6000) ∧
    (0 ≤ t → 0 ≤ (radToDMSParts t).1 ∧ 0 ≤ (radToDMSParts t).2.1 ∧
      0 ≤ (radToDMSParts t).2.2) ∧
    (t ≤ 0 → (radToDMSParts t).1 ≤ 0 ∧ (radToDMSParts t).2.1 ≤ 0 ∧
      (radToDMSParts t).2.2 ≤ 0) ∧
    radToDMS env toInt64 localeToString val =
      toString (radToDMSParts t).1 ++ "°" ++ toString (radToDMSParts t).2.1 ++ "'" ++
        localeToString (((radToDMSParts t).2.2 : R) / 100) ++ "\"" := by
  norm_num at hlo hhi
  have hw : ∀ v : Int, -2147483648 ≤ v → v < 2147483648 → wrapInt 32 v = v := by
    intro v h1 h2
    apply wrapInt_of_inSigned (by norm_num)
    unfold InSigned
    norm_num
    omega
  have key : ∃ d m c : Int, radToDMSParts t = (d, m, c) ∧ t = 360000 * d + 6000 * m + c ∧
      -60 < m ∧ m < 60 ∧ -6000 < c ∧ c < 6000 ∧
      (0 ≤ t → 0 ≤ d ∧ 0 ≤ m ∧ 0 ≤ c) ∧ (t ≤ 0 → d ≤ 0 ∧ m ≤ 0 ∧ c ≤ 0) := by
    rcases le_total 0 t with hpos | hneg
    · obtain ⟨q1, r1⟩ := cDiv_cRem_of_nonneg hpos (by norm_num : (0 : Int) < 6000)
      have hq : 0 ≤ t / 6000 := by omega
      obtain ⟨q2, r2⟩ := cDiv_cRem_of_nonneg hq (by norm_num : (0 : Int) < 60)
      refine ⟨t / 6000 / 60, t / 6000 % 60, t % 6000, ?_, ?_⟩
      · simp only [radToDMSParts, q1, r1, q2, r2]
        rw [hw _ (by omega) (by omega), hw _ (by omega) (by omega), hw _ (by omega) (by omega)]
      · omega
    · obtain ⟨q1, r1⟩ := cDiv_cRem_of_nonpos hneg (by norm_num : (0 : Int) < 6000)
      have hq : -(-t / 6000) ≤ 0 := by omega
      obtain ⟨q2, r2⟩ := cDiv_cRem_of_nonpos hq (by norm_num : (0 : Int) < 60)
      refine ⟨-(- -(-t / 6000) / 60), -(- -(-t / 6000) % 60), -(-t % 6000), ?_, ?_⟩
      · simp only [radToDMSParts, q1, r1, q2, r2]
        rw [hw _ (by omega) (by omega), hw _ (by omega) (by omega), hw _ (by omega) (by omega)]
      · omega
  obtain ⟨d, m, c, hp, h1, h2, h3, h4, h5, h6, h7⟩ := key
  simp only [radToDMS, ht, hp]
  exact ⟨h1, ⟨h2, h3⟩, ⟨h4, h5⟩, h6, h7, trivial⟩

/-- Witness for the amended C15: the angle of 10 degrees 30 minutes 15.25
seconds, that is 3781525 ticks, in the rational environment with truncation as
the conversion to `qint64`. -/
theorem radToDMS_spec_witness :
    radToDMSParts 3781525 = (10, 30, 1525) ∧
    (3781525 : Int) = 360000 * (radToDMSParts 3781525).1 +
      6000 * (radToDMSParts 3781525).2.1 + (radToDMSParts 3781525).2.2 ∧
    radToDMS ratEnv (fun x => if 0 ≤ x then ⌊x⌋ else ⌈x⌉) (fun _ => "15.25")
        (3781525 / 360000 * (22 / 1260)) =
      toString (radToDMSParts 3781525).1 ++ "°" ++ toString (radToDMSParts 3781525).2.1 ++ "'" ++
        "15.25" ++ "\"" :=
  have h := radToDMS_spec ratEnv (fun x => if 0 ≤ x then ⌊x⌋ else ⌈x⌉) (fun _ => "15.25")
    (3781525 / 360000 * (22 / 1260)) 3781525
    (by
      have e : ratEnv.RAD_TO_DEG * (3781525 / 360000 * (22 / 1260)) * 360000 =
          ((3781525 : Int) : ℚ) := by
        simp only [ratEnv]; norm_num
      simp only [e]
      rw [if_pos (by positivity), Int.floor_intCast])
    (by norm_num) (by norm_num)
  ⟨by decide, h.1, h.2.2.2.2.2⟩

/-! ### The `SHIFT_OPERATOR_IS_BINARY` branch of `convertOcdPoint` -/

/-- For every 32-bit coordinate other than 0 the branch shifts a non-negative
operand and computes the floor of `v / 256`, as the arithmetic shift does. -/
theorem binaryShift8_of_ne_zero (v : Int) (hv : InSigned 32 v) (h0 : v ≠ 0) :
    0 ≤ binaryShiftOperand v ∧ binaryShift8 v = sar v 8 := by
  unfold InSigned at hv
  norm_num at hv
  have hw : ∀ u : Int, -2147483648 ≤ u → u < 2147483648 → wrapInt 32 u = u := by
    intro u h1 h2
    apply wrapInt_of_inSigned (by norm_num)
    unfold InSigned
    norm_num
    omega
  have hs : sar v 8 = v / 256 := by
    rw [sar, Int.shiftRight_eq_div_pow]; norm_num
  rw [hs]
  by_cases hpos : v > 0
  · have hop : binaryShiftOperand v = v := by simp [binaryShiftOperand, hpos]
    have hl : lsr32 v 8 = v / 256 := by
      unfold lsr32
      norm_num
      rw [Int.emod_eq_of_lt (by omega) (by omega)]
      exact hw _ (by omega) (by omega)
    refine ⟨by rw [hop]; omega, ?_⟩
    simp only [binaryShift8, hpos, if_true, hop, hl]
  · have hop : binaryShiftOperand v = -1 - v := by
      simp only [binaryShiftOperand, hpos, if_false]
      exact hw _ (by omega) (by omega)
    have hl : lsr32 (-1 - v) 8 = (-1 - v) / 256 := by
      unfold lsr32
      norm_num
      rw [Int.emod_eq_of_lt (by omega) (by omega)]
      exact hw _ (by omega) (by omega)
    refine ⟨by rw [hop]; omega, ?_⟩
    simp only [binaryShift8, hpos, if_false, hop, hl]
    rw [hw _ (by omega) (by omega)]
    omega

theorem convertOcdPointBinary_of_ne_zero (p : OcdPoint32) (hx : InSigned 32 p.x)
    (hy : InSigned 32 p.y) (hx0 : p.x ≠ 0) (hy0 : p.y ≠ 0) :
    convertOcdPointBinary p = convertOcdPoint p := by
  simp only [convertOcdPointBinary, convertOcdPoint,
    (binaryShift8_of_ne_zero p.x hx hx0).2, (binaryShift8_of_ne_zero p.y hy hy0).2]

/-- C18, evaluated at the coordinate 0: the test is `v > 0`, so the branch
shifts the negative operand `-1 - 0 = -1`; the shift of the bit pattern gives
`0x00FFFFFF`, the coordinate becomes -16777216 instead of `floor(0 / 256) = 0`,
and the converted point differs from that of the arithmetic-shift branch. -/
theorem convertOcdPointBinary_zero :
    InSigned 32 0 ∧ binaryShiftOperand 0 = -1 ∧ lsr32 (-1) 8 = 16777215 ∧
    binaryShift8 0 = -16777216 ∧ sar 0 8 = 0 ∧
    convertOcdPointBinary ⟨0, 0⟩ = ⟨-167772160, 167772160⟩ ∧
    convertOcdPoint ⟨0, 0⟩ = ⟨0, 0⟩ := by
  decide

end Mapper
